import Mathlib

/-!
# Verification of the template field model of the brief-filling service

This file gives a shallow embedding, in Lean 4, of the algorithmic core of
the service implemented in src/app.py: label-line detection (LABEL_RE and
extract_fields), key slugging (the python-slugify library with
separator "_"), reconciliation of caller-supplied mappings against the
authoritative key set (normalize_user_data_to_keys, built on
difflib.get_close_matches), value coercion (ensure_value) and document
assembly (assemble_markdown).

Strings are modelled as lists of characters.  Python dictionaries are
modelled as association lists with first-occurrence lookup and
update-in-place insertion, which reproduces the insertion-order semantics
of CPython dictionaries.  The floating-point similarity cutoff 0.8 of
difflib is modelled as the rational 4/5: for every ratio 2*M/T arising
from the short strings considered here, the double-precision comparison
performed by CPython agrees with the exact rational comparison.
-/

set_option autoImplicit false

namespace MasterBrief

/-- Strings are modelled as lists of characters. -/
abbrev Str := List Char

/-- Coerce a Lean string literal to the character-list model. -/
def chars (s : String) : Str := s.data

/-- The sentinel literal "Sin datos" used throughout src/app.py. -/
def sinDatos : Str := chars "Sin datos"

/-- The apostrophe character (used by the QUOTE_PATTERN of python-slugify). -/
def quoteChar : Char := Char.ofNat 39

/-- Whitespace in the sense of the Python str.strip method and of the
regex class backslash-s, restricted to its ASCII members: space, tab,
newline, carriage return, vertical tab, form feed.  All template and
caller data considered by the claims is ASCII-whitespace only. -/
def isPySpace (c : Char) : Bool :=
  c = ' ' || c = '\t' || c = '\n' || c = '\r' || c = '\x0b' || c = '\x0c'

/-- Remove the trailing run of characters satisfying p
(the right half of the Python strip / rstrip methods). -/
def rstripP (p : Char → Bool) : Str → Str
  | [] => []
  | c :: cs =>
    match rstripP p cs with
    | [] => if p c then [] else [c]
    | r => c :: r

/-- Python str.strip(): remove leading and trailing whitespace. -/
def pyStrip (l : Str) : Str := rstripP isPySpace (l.dropWhile isPySpace)

/-- Python str.rstrip(): remove trailing whitespace. -/
def pyRStrip (l : Str) : Str := rstripP isPySpace l

/-- Worker for replaceRuns: the flag records whether the previous
character belonged to a run being replaced. -/
def replaceRunsGo (p : Char → Bool) (r : Str) : Bool → Str → Str
  | _, [] => []
  | inRun, c :: cs =>
    if p c then (if inRun then [] else r) ++ replaceRunsGo p r true cs
    else c :: replaceRunsGo p r false cs

/-- Replace every maximal nonempty run of characters satisfying p by the
replacement string r.  This is Python re.sub with the pattern "X+" for a
character class X and a fixed replacement. -/
def replaceRuns (p : Char → Bool) (r : Str) (l : Str) : Str :=
  replaceRunsGo p r false l

/-- Replace every occurrence of the character d by the string sep
(Python str.replace with a one-character needle). -/
def replaceChar (d : Char) (sep : Str) : Str → Str
  | [] => []
  | c :: cs => (if c = d then sep else [c]) ++ replaceChar d sep cs

/-- Model of the unidecode transliteration used by python-slugify:
ASCII characters map to themselves; the accented Latin letters that can
occur in the Spanish-language templates and caller data transliterate to
their base letters; the common typographic quotes become ASCII quotes;
any other non-ASCII character is dropped (unidecode yields an empty or
irrelevant transliteration for them, and none occurs in the data the
claims quantify over concretely). -/
def unidecodeChar (c : Char) : Str :=
  if c.toNat < 128 then [c]
  else if c = 'á' || c = 'à' || c = 'ä' || c = 'â' || c = 'ã' || c = 'å' then ['a']
  else if c = 'é' || c = 'è' || c = 'ë' || c = 'ê' then ['e']
  else if c = 'í' || c = 'ì' || c = 'ï' || c = 'î' then ['i']
  else if c = 'ó' || c = 'ò' || c = 'ö' || c = 'ô' || c = 'õ' then ['o']
  else if c = 'ú' || c = 'ù' || c = 'ü' || c = 'û' then ['u']
  else if c = 'ñ' then ['n']
  else if c = 'ç' then ['c']
  else if c = 'Á' || c = 'À' || c = 'Ä' || c = 'Â' then ['A']
  else if c = 'É' || c = 'È' || c = 'Ë' || c = 'Ê' then ['E']
  else if c = 'Í' || c = 'Ì' || c = 'Ï' || c = 'Î' then ['I']
  else if c = 'Ó' || c = 'Ò' || c = 'Ö' || c = 'Ô' then ['O']
  else if c = 'Ú' || c = 'Ù' || c = 'Ü' || c = 'Û' then ['U']
  else if c = 'Ñ' then ['N']
  else if c = 'Ç' then ['C']
  else if c = '’' || c = '‘' then [quoteChar]
  else []

/-- Transliterate a whole string. -/
def unidecodeStr : Str → Str
  | [] => []
  | c :: cs => unidecodeChar c ++ unidecodeStr cs

/-- Python str.lower restricted to ASCII (all slugify input is ASCII
after transliteration). -/
def pyLowerChar (c : Char) : Char :=
  if 65 ≤ c.toNat && c.toNat ≤ 90 then Char.ofNat (c.toNat + 32) else c

/-- The characters kept by the ALLOWED_CHARS_PATTERN of python-slugify:
the complement of the class [^-a-z0-9]. -/
def isSlugKeep (c : Char) : Bool :=
  c = '-' || (97 ≤ c.toNat && c.toNat ≤ 122) || (48 ≤ c.toNat && c.toNat ≤ 57)

/-- The NUMBERS_PATTERN of python-slugify: remove every comma that sits
between two digits. -/
def stripNumberCommas : Str → Str
  | a :: ',' :: b :: rest =>
    if a.isDigit && b.isDigit then a :: stripNumberCommas (b :: rest)
    else a :: stripNumberCommas (',' :: b :: rest)
  | c :: cs => c :: stripNumberCommas cs
  | [] => []

/-- Model of slugify(text, separator=sep) from the python-slugify
library with all other arguments at their defaults, as called by
src/app.py (always with separator "_").  The pipeline follows the
library source: pre-process quotes to dashes, transliterate, lowercase,
remove remaining quotes, drop commas between digits, collapse every run
of disallowed characters to a dash, collapse duplicate dashes, strip
edge dashes, and finally replace dashes by the separator.  HTML
character-entity references (absent from every input considered) are not
modelled. -/
def slugify (text : Str) (sep : Str) : Str :=
  let t := replaceRuns (fun c => c = quoteChar) ['-'] text
  let t := unidecodeStr t
  let t := t.map pyLowerChar
  let t := replaceRuns (fun c => c = quoteChar) [] t
  let t := stripNumberCommas t
  let t := replaceRuns (fun c => !isSlugKeep c) ['-'] t
  let t := replaceRuns (fun c => c = '-') ['-'] t
  let t := rstripP (fun c => c = '-') (t.dropWhile (fun c => c = '-'))
  if sep = ['-'] then t else replaceChar '-' sep t

/-! ## LABEL_RE and extract_fields

The pattern from src/app.py (verbose mode):

  caret ( backslash-s* ( [-*+] backslash-s+ | backslash-d+ period
  backslash-s+ )? ) ( double-star )? ( [^:*]+? ) ( double-star )?
  backslash-s* colon backslash-s* dollar

The matcher below reproduces the backtracking priority of the CPython
re engine for exactly this pattern: the leading whitespace of group 1 is
greedy, the bullet alternatives are tried in order and the empty option
last, the optional double-star groups prefer to consume, the label body
(group 2) is lazy, and the final run "whitespace colon whitespace
end-of-line" is deterministic because a colon is not whitespace. -/

/-- The tail of the pattern: backslash-s* colon backslash-s* dollar.
Greedy whitespace before the colon is equivalent to maximal munch here,
since the character after the consumed run must be the colon itself. -/
def wsColonWsEnd (l : Str) : Bool :=
  match l.dropWhile isPySpace with
  | ':' :: rest => rest.all isPySpace
  | _ => false

/-- What may follow the label body: an optional closing double-star,
then the colon tail.  The consuming branch is tried first, as the regex
option is greedy; if the input starts with a double-star the
non-consuming branch always fails on the star, so the ordered choice is
faithful. -/
def afterBody (l : Str) : Bool :=
  (match l with
   | '*' :: '*' :: rest => wsColonWsEnd rest
   | _ => false) || wsColonWsEnd l

/-- The lazy label body [^:*]+? : return the shortest nonempty prefix of
characters other than colon and star whose remainder satisfies
afterBody. -/
def matchBody : Str → Option Str
  | [] => none
  | c :: cs =>
    if c = ':' || c = '*' then none
    else if afterBody cs then some [c]
    else (matchBody cs).map (fun b => c :: b)

/-- The optional opening double-star followed by the label body; the
consuming branch is preferred (greedy option). -/
def matchStarsBody (l : Str) : Option Str :=
  (match l with
   | '*' :: '*' :: rest => matchBody rest
   | _ => none).orElse (fun _ => matchBody l)

/-- All ways group 1 can start with a whitespace run, as (consumed,
rest) pairs in greedy order: the maximal run first, down to the empty
prefix. -/
def wsSplits (l : Str) : List (Str × Str) :=
  let k := (l.takeWhile isPySpace).length
  ((List.range (k + 1)).reverse).map (fun i => (l.take i, l.drop i))

/-- All ways the optional bullet of group 1 can consume input, in the
priority order of the regex: the dash/star/plus alternative first (its
trailing whitespace greedy), then the ordinal alternative
(digits period whitespace; the digit run is forced maximal because the
following character must be the period), then the empty option. -/
def bulletSplits (l : Str) : List (Str × Str) :=
  (match l with
   | c :: cs =>
     if c = '-' || c = '*' || c = '+' then
       let m := (cs.takeWhile isPySpace).length
       ((List.range m).reverse).map
         (fun j => (c :: cs.take (j + 1), cs.drop (j + 1)))
     else []
   | [] => [])
  ++
  (let d := l.takeWhile Char.isDigit
   if d.length ≠ 0 then
     match l.drop d.length with
     | '.' :: cs2 =>
       let m := (cs2.takeWhile isPySpace).length
       ((List.range m).reverse).map
         (fun j => (d ++ '.' :: cs2.take (j + 1), cs2.drop (j + 1)))
     | _ => []
   else [])
  ++ [([], l)]

/-- LABEL_RE.match on one line: the captured groups (group 1, group 2)
of the first successful parse in backtracking priority order, or none
when the line is not a label line. -/
def labelMatch (l : Str) : Option (Str × Str) :=
  (wsSplits l).findSome? (fun pw =>
    (bulletSplits pw.2).findSome? (fun pb =>
      (matchStarsBody pb.2).map (fun body => (pw.1 ++ pb.1, body))))

/-- One detected field of the template index: the 0-based line position,
the raw label (group 2 stripped of whitespace) and the slugged key. -/
structure Field where
  line_idx : Nat
  raw_label : Str
  key : Str
  deriving DecidableEq, Repr

/-- Worker for extract_fields carrying the running line index. -/
def extractFieldsAux (i : Nat) : List Str → List Field
  | [] => []
  | ln :: rest =>
    match labelMatch ln with
    | some g =>
      let raw := pyStrip g.2
      { line_idx := i, raw_label := raw, key := slugify raw (chars "_") }
        :: extractFieldsAux (i + 1) rest
    | none => extractFieldsAux (i + 1) rest

/-- extract_fields from src/app.py: scan the lines in order, keep the
lines matched by LABEL_RE, and record position, stripped raw label and
slugged key. -/
def extract_fields (lines : List Str) : List Field :=
  extractFieldsAux 0 lines

/-! ## Python values, str() and json.dumps, ensure_value

Caller-supplied data is an arbitrary JSON-serializable Python value.
PyVal models the shapes that can arrive through the JSON ingestion of
src/app.py: None, booleans, integers, strings, lists and string-keyed
dictionaries.  Floating-point values are outside the model. -/

inductive PyVal where
  | none : PyVal
  | bool : Bool → PyVal
  | int : Int → PyVal
  | str : Str → PyVal
  | list : List PyVal → PyVal
  | dict : List (Str × PyVal) → PyVal

instance : Inhabited PyVal := ⟨PyVal.none⟩

/-- The decimal digit with value n (for n below 10). -/
def digitChar (n : Nat) : Char := Char.ofNat (48 + n)

/-- Lowercase hexadecimal digit with value n (for n below 16). -/
def hexDigit (n : Nat) : Char :=
  if n < 10 then digitChar n else Char.ofNat (87 + n)

/-- Decimal notation for a natural number, most significant digit
first; the first argument is recursion fuel, always sufficient when at
least the number itself. -/
def natReprAux : Nat → Nat → Str
  | 0, _ => []
  | fuel + 1, n =>
    if n < 10 then [digitChar n]
    else natReprAux fuel (n / 10) ++ [digitChar (n % 10)]

/-- Python str() of a natural number. -/
def natRepr (n : Nat) : Str := natReprAux (n + 1) n

/-- Python str() of an integer: decimal digits with a leading minus
sign for negative values. -/
def intRepr : Int → Str
  | .ofNat n => natRepr n
  | .negSucc m => '-' :: natRepr (m + 1)

/-- Python str() of a boolean. -/
def boolRepr : Bool → Str
  | true => chars "True"
  | false => chars "False"

/-- One character of a JSON string literal as produced by json.dumps
with ensure_ascii=False: escape the quote, the backslash and control
characters, pass everything else through. -/
def jsonEscapeChar (c : Char) : Str :=
  if c = Char.ofNat 34 then [Char.ofNat 92, Char.ofNat 34]
  else if c = Char.ofNat 92 then [Char.ofNat 92, Char.ofNat 92]
  else if c = '\n' then [Char.ofNat 92, 'n']
  else if c = '\t' then [Char.ofNat 92, 't']
  else if c = '\r' then [Char.ofNat 92, 'r']
  else if c = Char.ofNat 8 then [Char.ofNat 92, 'b']
  else if c = Char.ofNat 12 then [Char.ofNat 92, 'f']
  else if c.toNat < 32 then
    [Char.ofNat 92, 'u', '0', '0', hexDigit (c.toNat / 16), hexDigit (c.toNat % 16)]
  else [c]

/-- A JSON string literal for s. -/
def jsonQuote (s : Str) : Str :=
  Char.ofNat 34 :: (s.map jsonEscapeChar).flatten ++ [Char.ofNat 34]

mutual

/-- json.dumps(v, ensure_ascii=False) with the default separators:
", " between items and ": " between a key and its value. -/
def pyJson : PyVal → Str
  | .none => chars "null"
  | .bool true => chars "true"
  | .bool false => chars "false"
  | .int n => intRepr n
  | .str s => jsonQuote s
  | .list xs => '[' :: (pyJsonItems xs ++ [']'])
  | .dict kvs => Char.ofNat 123 :: (pyJsonEntries kvs ++ [Char.ofNat 125])

/-- The comma-separated rendering of the items of a JSON array. -/
def pyJsonItems : List PyVal → Str
  | [] => []
  | [x] => pyJson x
  | x :: y :: xs => pyJson x ++ ',' :: ' ' :: pyJsonItems (y :: xs)

/-- The comma-separated rendering of the entries of a JSON object. -/
def pyJsonEntries : List (Str × PyVal) → Str
  | [] => []
  | [(k, v)] => jsonQuote k ++ ':' :: ' ' :: pyJson v
  | (k, v) :: e :: kvs =>
    jsonQuote k ++ ':' :: ' ' :: pyJson v ++ ',' :: ' ' :: pyJsonEntries (e :: kvs)

end

/-- Python str() on a PyVal.  The container cases are never reached
from ensure_value, which converts containers through json.dumps first;
they are rendered as their JSON text to keep the function total. -/
def pyStr : PyVal → Str
  | .none => chars "None"
  | .bool b => boolRepr b
  | .int n => intRepr n
  | .str s => s
  | .list xs => pyJson (.list xs)
  | .dict kvs => pyJson (.dict kvs)

/-- ensure_value from src/app.py: None becomes the sentinel; a dict or
list becomes its JSON text (the json.dumps call cannot fail on PyVal,
so the except branch is dead); every value is then stringified and
stripped, and an empty result becomes the sentinel. -/
def ensure_value : PyVal → Str
  | .none => sinDatos
  | .list xs =>
    let s := pyStrip (pyJson (.list xs))
    if s = [] then sinDatos else s
  | .dict kvs =>
    let s := pyStrip (pyJson (.dict kvs))
    if s = [] then sinDatos else s
  | v =>
    let s := pyStrip (pyStr v)
    if s = [] then sinDatos else s

/-! ## Python dictionaries

A CPython dict is modelled as an association list without duplicate
keys, in insertion order: lookup finds the first (unique) entry, and
item assignment replaces the value in place when the key is present and
appends a new entry otherwise. -/

/-- Python d.get(k) / d[k]. -/
def dictGet {α : Type} : List (Str × α) → Str → Option α
  | [], _ => none
  | e :: d, k => if e.1 = k then some e.2 else dictGet d k

/-- Python d[k] = v. -/
def dictSet {α : Type} : List (Str × α) → Str → α → List (Str × α)
  | [], k, v => [(k, v)]
  | e :: d, k, v => if e.1 = k then (k, v) :: d else e :: dictSet d k v

/-! ## difflib: SequenceMatcher and get_close_matches

Model of the CPython difflib routines used by
normalize_user_data_to_keys, specialised to isjunk=None and to character
sequences.  Arguments follow difflib: the first sequence is a candidate
key, the second is the caller word (set_seq2 is called on the word, so
the autojunk heuristic applies to the word). -/

/-- Ascending occurrence indices of c, starting at offset j. -/
def indicesOfAux (c : Char) : Nat → Str → List Nat
  | _, [] => []
  | j, x :: xs =>
    if x = c then j :: indicesOfAux c (j + 1) xs else indicesOfAux c (j + 1) xs

/-- The ascending list of indices at which c occurs in b (the b2j entry
of c before the autojunk deletion). -/
def indicesOf (b : Str) (c : Char) : List Nat := indicesOfAux c 0 b

/-- The autojunk rule of SequenceMatcher: when the second sequence has
at least 200 elements, characters occurring more than length/100 + 1
times are popular and are dropped from b2j. -/
def bPopular (b : Str) (c : Char) : Bool :=
  b.length ≥ 200 && (indicesOf b c).length > b.length / 100 + 1

/-- The b2j mapping after autojunk. -/
def b2jGet (b : Str) (c : Char) : List Nat :=
  if bPopular b c then [] else indicesOf b c

/-- Lookup in the j2len dictionary of the matching loop. -/
def lookupNat : List (Nat × Nat) → Nat → Option Nat
  | [], _ => none
  | e :: d, k => if e.1 = k then some e.2 else lookupNat d k

/-- The inner j loop of find_longest_match for one row i: js holds the
b2j indices already restricted to [blo, bhi); the accumulator builds
newj2len and the current best triple (besti, bestj, bestsize). -/
def flmRowAux (j2len : List (Nat × Nat)) (i : Nat) :
    List Nat → List (Nat × Nat) → Nat × Nat × Nat → List (Nat × Nat) × (Nat × Nat × Nat)
  | [], acc, best => (acc, best)
  | j :: js, acc, best =>
    let prev := if j = 0 then 0 else (lookupNat j2len (j - 1)).getD 0
    let k := prev + 1
    let best2 := if k > best.2.2 then (i + 1 - k, j + 1 - k, k) else best
    flmRowAux j2len i js ((j, k) :: acc) best2

/-- The outer i loop of find_longest_match.  The dropWhile models the
continue on j below blo and the takeWhile the break at j at or beyond
bhi (the index lists are ascending). -/
def flmRows (a b : Str) (blo bhi : Nat) :
    List Nat → List (Nat × Nat) → Nat × Nat × Nat → Nat × Nat × Nat
  | [], _, best => best
  | i :: is, j2len, best =>
    let js := ((b2jGet b (a.getD i ' ')).dropWhile (fun j => j < blo)).takeWhile
      (fun j => j < bhi)
    let r := flmRowAux j2len i js [] best
    flmRows a b blo bhi is r.1 r.2

/-- The downward extension loops of find_longest_match (fuel-bounded;
the fuel besti is an upper bound on the possible decrements). -/
def extendLow (a b : Str) (junk : Char → Bool) (wantJunk : Bool) (alo blo : Nat) :
    Nat → Nat × Nat × Nat → Nat × Nat × Nat
  | 0, st => st
  | fuel + 1, (besti, bestj, bestsize) =>
    if alo < besti ∧ blo < bestj ∧ junk (b.getD (bestj - 1) ' ') = wantJunk ∧
        a.getD (besti - 1) ' ' = b.getD (bestj - 1) ' ' then
      extendLow a b junk wantJunk alo blo fuel (besti - 1, bestj - 1, bestsize + 1)
    else (besti, bestj, bestsize)

/-- The upward extension loops of find_longest_match. -/
def extendHigh (a b : Str) (junk : Char → Bool) (wantJunk : Bool) (ahi bhi : Nat) :
    Nat → Nat × Nat × Nat → Nat × Nat × Nat
  | 0, st => st
  | fuel + 1, (besti, bestj, bestsize) =>
    if besti + bestsize < ahi ∧ bestj + bestsize < bhi ∧
        junk (b.getD (bestj + bestsize) ' ') = wantJunk ∧
        a.getD (besti + bestsize) ' ' = b.getD (bestj + bestsize) ' ' then
      extendHigh a b junk wantJunk ahi bhi fuel (besti, bestj, bestsize + 1)
    else (besti, bestj, bestsize)

/-- find_longest_match of SequenceMatcher over a[alo:ahi] and
b[blo:bhi]: the dynamic-programming sweep, then the four extension
loops (non-junk then junk, low side then high side).  The matcher is
built with isjunk None, so the junk set tested by the extension loops
is empty (the autojunk popular set only prunes b2j): the first pair of
loops extends over every equal character and the second pair never
fires. -/
def find_longest_match (a b : Str) (alo ahi blo bhi : Nat) : Nat × Nat × Nat :=
  let st := flmRows a b blo bhi (List.range' alo (ahi - alo)) [] (alo, blo, 0)
  let st := extendLow a b (fun _ => false) false alo blo st.1 st
  let st := extendHigh a b (fun _ => false) false ahi bhi (ahi + bhi + 1) st
  let st := extendLow a b (fun _ => false) true alo blo st.1 st
  let st := extendHigh a b (fun _ => false) true ahi bhi (ahi + bhi + 1) st
  st

/-- Total size of the matching blocks found by the recursive divide and
conquer of get_matching_blocks (the merge step of difflib never changes
the total).  Fuel bounds the recursion depth; each recursive call works
on a strictly smaller a-range, so fuel ahi - alo + 1 always suffices. -/
def matchesTotal (a b : Str) : Nat → Nat → Nat → Nat → Nat → Nat
  | 0, _, _, _, _ => 0
  | fuel + 1, alo, ahi, blo, bhi =>
    let m := find_longest_match a b alo ahi blo bhi
    let i := m.1
    let j := m.2.1
    let k := m.2.2
    if k = 0 then 0
    else
      k + (if alo < i ∧ blo < j then matchesTotal a b fuel alo i blo j else 0)
        + (if i + k < ahi ∧ j + k < bhi then matchesTotal a b fuel (i + k) ahi (j + k) bhi
           else 0)

/-- The total matching size of SequenceMatcher over the full
sequences. -/
def mTotal (a b : Str) : Nat :=
  matchesTotal a b (a.length + 1) 0 a.length 0 b.length

/-- A ratio 2*M/T of difflib as an exact fraction (numerator,
positive denominator); difflib defines the ratio of two empty
sequences to be 1. -/
def scoreOf (m total : Nat) : Nat × Nat :=
  if total = 0 then (1, 1) else (2 * m, total)

/-- SequenceMatcher.ratio() for a against b (b is the word), as an
exact fraction. -/
def ratioScore (a b : Str) : Nat × Nat :=
  scoreOf (mTotal a b) (a.length + b.length)

/-- SequenceMatcher.ratio() as a rational number, for specification
statements. -/
def ratio (a b : Str) : ℚ :=
  ((ratioScore a b).1 : ℚ) / ((ratioScore a b).2 : ℚ)

/-- Comparison of an exact fraction against the cutoff cn/cd by cross
multiplication (all denominators are positive, so this is the exact
comparison the CPython float arithmetic performs at these
magnitudes). -/
def scoreGe (x : Nat × Nat) (cn cd : Nat) : Bool := cd * x.1 ≥ cn * x.2

/-- Strict comparison of two exact fractions. -/
def scoreGt (x y : Nat × Nat) : Bool := y.2 * x.1 > x.2 * y.1

/-- Equality of two exact fractions. -/
def scoreEq (x y : Nat × Nat) : Bool := y.2 * x.1 = x.2 * y.1

/-- Signed character counts (Python dict of counts, in first-seen
order). -/
def bumpCount : List (Char × Int) → Char → List (Char × Int)
  | [], c => [(c, 1)]
  | e :: d, c => if e.1 = c then (c, e.2 + 1) :: d else e :: bumpCount d c

/-- The character-count dictionary of a string. -/
def countChars (b : Str) : List (Char × Int) := b.foldl bumpCount []

/-- Lookup in a character-count dictionary. -/
def lookupCharInt : List (Char × Int) → Char → Option Int
  | [], _ => none
  | e :: d, c => if e.1 = c then some e.2 else lookupCharInt d c

/-- Assignment in a character-count dictionary. -/
def setCharInt : List (Char × Int) → Char → Int → List (Char × Int)
  | [], c, n => [(c, n)]
  | e :: d, c, n => if e.1 = c then (c, n) :: d else e :: setCharInt d c n

/-- The availability loop of SequenceMatcher.quick_ratio. -/
def quickRatioLoop (fullb : List (Char × Int)) :
    Str → List (Char × Int) → Nat → Nat
  | [], _, acc => acc
  | c :: rest, avail, acc =>
    let numb :=
      match lookupCharInt avail c with
      | some n => n
      | none => (lookupCharInt fullb c).getD 0
    quickRatioLoop fullb rest (setCharInt avail c (numb - 1))
      (if numb > 0 then acc + 1 else acc)

/-- SequenceMatcher.quick_ratio() as an exact fraction: an upper bound
on ratio from character multiset intersection. -/
def quickScore (a b : Str) : Nat × Nat :=
  scoreOf (quickRatioLoop (countChars b) a [] 0) (a.length + b.length)

/-- SequenceMatcher.real_quick_ratio() as an exact fraction. -/
def realQuickScore (a b : Str) : Nat × Nat :=
  scoreOf (min a.length b.length) (a.length + b.length)

/-- Python string comparison (lexicographic by code point), strict
less-than. -/
def strLtB : Str → Str → Bool
  | [], [] => false
  | [], _ :: _ => true
  | _ :: _, [] => false
  | c :: cs, d :: ds => if c < d then true else if d < c then false else strLtB cs ds

/-- Strict comparison of (score, string) pairs as Python compares the
tuples built by get_close_matches. -/
def pairGt (x y : (Nat × Nat) × Str) : Bool :=
  scoreGt x.1 y.1 || (scoreEq x.1 y.1 && strLtB y.2 x.2)

/-- Python max() over a nonempty list of (score, string) pairs: scan
left to right, replace the current best only on strictly greater. -/
def pyMaxAux : List ((Nat × Nat) × Str) → (Nat × Nat) × Str → (Nat × Nat) × Str
  | [], best => best
  | x :: xs, best => pyMaxAux xs (if pairGt x best then x else best)

/-- The filtering pass of get_close_matches: keep the possibilities
whose three ratios all reach the cutoff cn/cd, with their ratio. -/
def gcmCandidates (word : Str) (cn cd : Nat) : List Str → List ((Nat × Nat) × Str)
  | [] => []
  | x :: xs =>
    if scoreGe (realQuickScore x word) cn cd ∧ scoreGe (quickScore x word) cn cd ∧
        scoreGe (ratioScore x word) cn cd then
      (ratioScore x word, x) :: gcmCandidates word cn cd xs
    else gcmCandidates word cn cd xs

/-- difflib.get_close_matches(word, possibilities, n=1, cutoff=cn/cd):
the n=1 path of heapq.nlargest is Python max over the (ratio, string)
pairs. -/
def get_close_matches1 (word : Str) (possibilities : List Str) (cn cd : Nat) :
    Option Str :=
  match gcmCandidates word cn cd possibilities with
  | [] => none
  | x :: xs => some (pyMaxAux xs x).2

/-! ## normalize_user_data_to_keys -/

/-- The underscore separator string passed to slugify by src/app.py. -/
def sepUnderscore : Str := chars "_"

/-- The slug-to-key dictionary built by the first line of
normalize_user_data_to_keys (a later duplicate slug overwrites the
value, as in a Python dict comprehension). -/
def buildNormExpected (expected_keys : List Str) : List (Str × Str) :=
  expected_keys.foldl (fun d k => dictSet d (slugify k sepUnderscore) k) []

/-- The initial output dictionary of normalize_user_data_to_keys:
every expected key bound to the sentinel. -/
def buildOut0 (expected_keys : List Str) : List (Str × PyVal) :=
  expected_keys.foldl (fun d k => dictSet d k (PyVal.str sinDatos)) []

/-- The body of the loop of normalize_user_data_to_keys for one caller
entry. -/
def normStep (norm_expected : List (Str × Str)) (out : List (Str × PyVal))
    (e : Str × PyVal) : List (Str × PyVal) :=
  match dictGet norm_expected (slugify e.1 sepUnderscore) with
  | some tgt => dictSet out tgt e.2
  | none =>
    match get_close_matches1 (slugify e.1 sepUnderscore)
        (norm_expected.map Prod.fst) 4 5 with
    | some best =>
      match dictGet norm_expected best with
      | some tgt => dictSet out tgt e.2
      | none => out
    | none => out

/-- normalize_user_data_to_keys from src/app.py.  The caller mapping is
the items() view of a Python dict in insertion order.  norm_expected
maps the slug of each expected key back to the key; out starts with
every expected key bound to the sentinel; each caller entry is assigned
through an exact slug match, else through get_close_matches over all
slugs at cutoff 0.8, else dropped.  The inner none branch of normStep
is unreachable: the best match is drawn from the keys of
norm_expected. -/
def normalize_user_data_to_keys (user_data : List (Str × PyVal))
    (expected_keys : List Str) : List (Str × PyVal) :=
  user_data.foldl (normStep (buildNormExpected expected_keys))
    (buildOut0 expected_keys)

/-! ## assemble_markdown -/

/-- Python line.rfind(c): the index of the last occurrence. -/
def pyRFind (l : Str) (c : Char) : Option Nat := (indicesOf l c).getLast?

/-- The per-line rewrite of assemble_markdown: everything up to and
including the last colon followed by a space and the value, or — when
the line has no colon — the right-stripped line followed by a space
and the value. -/
def rewriteLine (line val : Str) : Str :=
  match pyRFind line ':' with
  | none => pyRStrip line ++ ' ' :: val
  | some idx => line.take (idx + 1) ++ ' ' :: val

/-- One iteration of the assembly loop of assemble_markdown: read the
line at the field position, compute the value (sentinel-coerced, with
default empty string when the key is absent), rewrite it, and store
the line back. -/
def assembleStep (data : List (Str × PyVal)) (out : List Str) (f : Field) : List Str :=
  out.set f.line_idx
    (rewriteLine (out.getD f.line_idx [])
      (ensure_value ((dictGet data f.key).getD (PyVal.str []))))

/-- The line list after the assembly loop of assemble_markdown. -/
def assembleLines (template_lines : List Str) (fields : List Field)
    (data : List (Str × PyVal)) : List Str :=
  fields.foldl (assembleStep data) template_lines

/-- Python "backslash-n".join(out). -/
def joinLines : List Str → Str
  | [] => []
  | [l] => l
  | l :: m :: ls => l ++ '\n' :: joinLines (m :: ls)

/-- assemble_markdown from src/app.py: rewrite the indexed lines and
join everything with newlines, with one trailing newline. -/
def assemble_markdown (template_lines : List Str) (fields : List Field)
    (data : List (Str × PyVal)) : Str :=
  joinLines (assembleLines template_lines fields data) ++ ['\n']

/-! ## Specification-side vocabulary

Definitions below render phrases of the specification and the claims;
they are deliberately written from the wording of the spec, to be
compared with the code-side functions above. -/

/-- The prefix of a line up to and including its last colon, as the
specification words it (empty when the line has no colon): drop the
trailing colon-free segment. -/
def upToLastColon (l : Str) : Str :=
  (l.reverse.dropWhile (fun c => c ≠ ':')).reverse

/-- The value coercion as claim C9 words it, case by case: None and
whitespace-only string forms become the sentinel, containers become
their JSON text, every other value becomes its whitespace-stripped
string form. -/
def ensureSpecValue : PyVal → Str
  | .none => sinDatos
  | .str s => if pyStrip s = [] then sinDatos else pyStrip s
  | .list xs => pyJson (.list xs)
  | .dict kvs => pyJson (.dict kvs)
  | .int n => pyStrip (intRepr n)
  | .bool b => pyStrip (boolRepr b)

/-- No two adjacent characters of the list both satisfy p. -/
def noTwoAdj (p : Char → Bool) : Str → Bool
  | a :: b :: rest => (!(p a && p b)) && noTwoAdj p (b :: rest)
  | _ => true

/-- The alphabet of the keys produced by slugify with separator
underscore: lowercase letters, digits and the underscore. -/
def isKeyChar (c : Char) : Bool :=
  c = '_' || (97 ≤ c.toNat && c.toNat ≤ 122) || (48 ≤ c.toNat && c.toNat ≤ 57)

/-- The dash-to-underscore renaming done by the final separator
replacement of slugify. -/
def dashToUnd (c : Char) : Char := if c = '-' then '_' else c

/-- The underscore-to-dash renaming performed on an already-slugged
string by the ALLOWED_CHARS_PATTERN pass of slugify. -/
def undToDash (c : Char) : Char := if !isSlugKeep c then '-' else c

/-- Concrete 79-character authoritative key exercising the fuzzy
cutoff boundary from below. -/
def keyA79 : Str :=
  chars "abcdefghijklmnopqrstuvwxyzabcdefghijklmnopqrstuvwxyzabcdefghijklmnopqrstuvwxyza"

/-- Concrete 121-character caller key whose similarity to keyA79 is
exactly 158/200 = 0.79. -/
def word121 : Str := keyA79 ++ chars "000000000000000000000000000000000000000000"

/-! ## Sanity checks

Concrete evaluations of the embedded functions, each cross-checked
against the behavior of the CPython implementation. -/

example : slugify (chars "Cliente/Marca") (chars "_") = chars "cliente_marca" := by decide
example : slugify (chars "Cliente / Marca") (chars "_") = chars "cliente_marca" := by decide
example : slugify (chars "Razón Social") (chars "_") = chars "razon_social" := by decide
example : slugify (chars "razon-social") (chars "_") = chars "razon_social" := by decide
example : slugify (chars "RAZÓN   SOCIAL") (chars "_") = chars "razon_social" := by decide

example : labelMatch (chars "- **Cliente/Marca**:")
    = some (chars "- ", chars "Cliente/Marca") := by decide
example : labelMatch (chars "- **Cliente/Marca:**") = none := by decide
example : labelMatch (chars "Sitio web:") = some (chars "", chars "Sitio web") := by decide
example : labelMatch (chars ":") = none := by decide
example : labelMatch (chars " :") = some (chars "", chars " ") := by decide
example : labelMatch (chars "12. Objetivo:") = some (chars "12. ", chars "Objetivo") := by decide
example : labelMatch (chars "Etiqueta: algo") = none := by decide
example : extract_fields [chars "x", chars "A:"]
    = [{ line_idx := 1, raw_label := chars "A", key := chars "a" }] := by decide

example : ensure_value (.str (chars "  Acme ")) = chars "Acme" := by decide
example : ensure_value (.str (chars "   ")) = sinDatos := by decide
example : ensure_value .none = sinDatos := by decide
example : ensure_value (.str []) = sinDatos := by decide

example : ratioScore (chars "a_key") (chars "a_kei") = (8, 10) := by decide
example : ratioScore (chars "abcda") (chars "abcdx") = (8, 10) := by decide
example : get_close_matches1 (chars "abcdx") [chars "abcda", chars "abcdb"] 4 5
    = some (chars "abcdb") := by decide
example : get_close_matches1 (chars "a_kei") [chars "a_key"] 4 5
    = some (chars "a_key") := by decide
example :
    normalize_user_data_to_keys
      [(chars "a_key", .str (chars "v1")), (chars "a_kei", .str (chars "v2"))]
      [chars "a_key"]
    = [(chars "a_key", .str (chars "v2"))] := by rfl
example :
    assemble_markdown [chars "- **Cliente/Marca**:"]
      (extract_fields [chars "- **Cliente/Marca**:"])
      [(chars "cliente_marca", .str (chars "Acme"))]
    = chars "- **Cliente/Marca**: Acme\n" := by rfl

/-! ## Dictionary lemmas -/

theorem dictSet_mem_keys {α : Type} (d : List (Str × α)) (k : Str) (v : α) (k0 : Str) :
    k0 ∈ (dictSet d k v).map Prod.fst ↔ k0 ∈ d.map Prod.fst ∨ k0 = k := by
  induction d with
  | nil => simp [dictSet]
  | cons e d ih =>
    rw [dictSet]
    by_cases h : e.1 = k
    · rw [if_pos h, ← h]
      simp only [List.map_cons, List.mem_cons]
      constructor
      · rintro (h2 | h2)
        · exact Or.inr h2
        · exact Or.inl (Or.inr h2)
      · rintro ((h2 | h2) | h2)
        · exact Or.inl h2
        · exact Or.inr h2
        · exact Or.inl h2
    · rw [if_neg h]
      simp only [List.map_cons, List.mem_cons, ih]
      constructor
      · rintro (h2 | h2 | h2)
        · exact Or.inl (Or.inl h2)
        · exact Or.inl (Or.inr h2)
        · exact Or.inr h2
      · rintro ((h2 | h2) | h2)
        · exact Or.inl h2
        · exact Or.inr (Or.inl h2)
        · exact Or.inr (Or.inr h2)

theorem dictGet_mem_values {α : Type} (d : List (Str × α)) (k : Str) (v : α)
    (h : dictGet d k = some v) : v ∈ d.map Prod.snd := by
  induction d with
  | nil => exact absurd h (by simp [dictGet])
  | cons e d ih =>
    rw [dictGet] at h
    by_cases he : e.1 = k
    · rw [if_pos he, Option.some_inj] at h
      simp only [List.map_cons, List.mem_cons]
      exact Or.inl h.symm
    · rw [if_neg he] at h
      simp only [List.map_cons, List.mem_cons]
      exact Or.inr (ih h)

theorem dictSet_mem_values {α : Type} (d : List (Str × α)) (k : Str) (v x : α)
    (h : x ∈ (dictSet d k v).map Prod.snd) : x ∈ d.map Prod.snd ∨ x = v := by
  induction d with
  | nil =>
    simp [dictSet] at h
    exact Or.inr h
  | cons e d ih =>
    rw [dictSet] at h
    by_cases he : e.1 = k
    · rw [if_pos he] at h
      simp only [List.map_cons, List.mem_cons] at h
      rcases h with h | h
      · exact Or.inr h
      · exact Or.inl (by simp only [List.map_cons, List.mem_cons]; exact Or.inr h)
    · rw [if_neg he] at h
      simp only [List.map_cons, List.mem_cons] at h
      rcases h with h | h
      · exact Or.inl (by simp only [List.map_cons, List.mem_cons]; exact Or.inl h)
      · rcases ih h with h2 | h2
        · exact Or.inl (by simp only [List.map_cons, List.mem_cons]; exact Or.inr h2)
        · exact Or.inr h2

theorem buildNormExpected_values (e : List Str) (v : Str)
    (h : v ∈ (buildNormExpected e).map Prod.snd) : v ∈ e := by
  have H : ∀ (e : List Str) (acc : List (Str × Str)),
      v ∈ (e.foldl (fun d k => dictSet d (slugify k sepUnderscore) k) acc).map Prod.snd →
      v ∈ acc.map Prod.snd ∨ v ∈ e := by
    intro e
    induction e with
    | nil =>
      intro acc h2
      exact Or.inl h2
    | cons k e ih =>
      intro acc h2
      rw [List.foldl_cons] at h2
      rcases ih _ h2 with h3 | h3
      · rcases dictSet_mem_values _ _ _ _ h3 with h4 | h4
        · exact Or.inl h4
        · simp [h4]
      · simp [h3]
  rcases H e [] h with h2 | h2
  · simp at h2
  · exact h2

theorem buildOut0_keys (e : List Str) (k : Str) :
    k ∈ (buildOut0 e).map Prod.fst ↔ k ∈ e := by
  have H : ∀ (e : List Str) (acc : List (Str × PyVal)),
      k ∈ (e.foldl (fun d k => dictSet d k (PyVal.str sinDatos)) acc).map Prod.fst ↔
      k ∈ acc.map Prod.fst ∨ k ∈ e := by
    intro e
    induction e with
    | nil =>
      intro acc
      simp
    | cons k1 e ih =>
      intro acc
      rw [List.foldl_cons, ih, dictSet_mem_keys]
      simp
      constructor
      · rintro ((h | h) | h)
        · exact Or.inl h
        · exact Or.inr (Or.inl h)
        · exact Or.inr (Or.inr h)
      · rintro (h | h | h)
        · exact Or.inl (Or.inl h)
        · exact Or.inl (Or.inr h)
        · exact Or.inr h
  rw [buildOut0, H e []]
  simp

theorem normStep_keys_subset (ne : List (Str × Str)) (out : List (Str × PyVal))
    (entry : Str × PyVal) (k : Str)
    (h : k ∈ (normStep ne out entry).map Prod.fst) :
    k ∈ out.map Prod.fst ∨ k ∈ ne.map Prod.snd := by
  rw [normStep] at h
  split at h
  next tgt h1 =>
    rcases (dictSet_mem_keys _ _ _ _).1 h with h4 | h4
    · exact Or.inl h4
    · exact Or.inr (h4 ▸ dictGet_mem_values _ _ _ h1)
  next h1 =>
    split at h
    next best h2 =>
      split at h
      next tgt h3 =>
        rcases (dictSet_mem_keys _ _ _ _).1 h with h4 | h4
        · exact Or.inl h4
        · exact Or.inr (h4 ▸ dictGet_mem_values _ _ _ h3)
      next h3 => exact Or.inl h
    next h2 => exact Or.inl h

theorem dictGet_of_all_values {α : Type} (d : List (Str × α)) (v0 : α)
    (hv : ∀ v, v ∈ d.map Prod.snd → v = v0) (k : Str) (hk : k ∈ d.map Prod.fst) :
    dictGet d k = some v0 := by
  induction d with
  | nil =>
    rw [List.map_nil] at hk
    exact absurd hk (List.not_mem_nil k)
  | cons e d ih =>
    rw [dictGet]
    by_cases he : e.1 = k
    · rw [if_pos he,
        hv e.2 (by rw [List.map_cons]; exact List.mem_cons_self _ _)]
    · rw [if_neg he]
      refine ih (fun v hvm => hv v (by simp only [List.map_cons, List.mem_cons]; exact Or.inr hvm)) ?_
      simp only [List.map_cons, List.mem_cons] at hk
      rcases hk with h | h
      · exact absurd h.symm he
      · exact h

theorem buildOut0_values (e : List Str) (v : PyVal)
    (h : v ∈ (buildOut0 e).map Prod.snd) : v = .str sinDatos := by
  have H : ∀ (e : List Str) (acc : List (Str × PyVal)),
      v ∈ (e.foldl (fun d k => dictSet d k (PyVal.str sinDatos)) acc).map Prod.snd →
      v ∈ acc.map Prod.snd ∨ v = .str sinDatos := by
    intro e
    induction e with
    | nil =>
      intro acc h2
      exact Or.inl h2
    | cons k e ih =>
      intro acc h2
      rw [List.foldl_cons] at h2
      rcases ih _ h2 with h3 | h3
      · exact dictSet_mem_values _ _ _ _ h3
      · exact Or.inr h3
  rcases H e [] h with h2 | h2
  · simp at h2
  · exact h2

theorem normStep_keys_super (ne : List (Str × Str)) (out : List (Str × PyVal))
    (entry : Str × PyVal) (k : Str) (h : k ∈ out.map Prod.fst) :
    k ∈ (normStep ne out entry).map Prod.fst := by
  rw [normStep]
  split
  next tgt h1 => exact (dictSet_mem_keys _ _ _ _).2 (Or.inl h)
  next h1 =>
    split
    next best h2 =>
      split
      next tgt h3 => exact (dictSet_mem_keys _ _ _ _).2 (Or.inl h)
      next h3 => exact h
    next h2 => exact h

/-! ## Claim C1 -/

/-- C1: for every caller-supplied mapping and every authoritative key
list, reconciliation is total and returns a mapping whose key set
equals the authoritative key set exactly — every authoritative key is
present (initialized to the sentinel, as the empty-caller-data case
shows), and no unmatched caller key introduces a new key. -/
theorem normalize_closed_key_set (user_data : List (Str × PyVal))
    (expected_keys : List Str) :
    (∀ k, k ∈ (normalize_user_data_to_keys user_data expected_keys).map Prod.fst ↔
      k ∈ expected_keys) ∧
    (∀ k, k ∈ expected_keys →
      dictGet (normalize_user_data_to_keys [] expected_keys) k =
        some (.str sinDatos)) := by
  constructor
  · have inv : ∀ (u : List (Str × PyVal)) (out : List (Str × PyVal)),
        (∀ k, k ∈ out.map Prod.fst ↔ k ∈ expected_keys) →
        ∀ k, k ∈ (u.foldl (normStep (buildNormExpected expected_keys)) out).map
          Prod.fst ↔ k ∈ expected_keys := by
      intro u
      induction u with
      | nil =>
        intro out h k
        exact h k
      | cons entry u ih =>
        intro out h k
        rw [List.foldl_cons]
        refine ih _ (fun k0 => ?_) k
        constructor
        · intro hk
          rcases normStep_keys_subset _ _ _ _ hk with h2 | h2
          · exact (h k0).1 h2
          · exact buildNormExpected_values _ _ h2
        · intro hk
          exact normStep_keys_super _ _ _ _ ((h k0).2 hk)
    intro k
    exact inv user_data _ (fun k0 => buildOut0_keys expected_keys k0) k
  · intro k hk
    rw [normalize_user_data_to_keys, List.foldl_nil]
    exact dictGet_of_all_values _ _ (buildOut0_values expected_keys)
      k ((buildOut0_keys expected_keys k).2 hk)

/-- Witness for C1 at a concrete template and caller mapping: the
caller key "extra" matches nothing and is dropped; the key set of the
result is exactly the authoritative one, and "sitio_web" is filled
with the sentinel when the caller mapping is empty. -/
theorem normalize_closed_key_set_witness :
    ((chars "sitio_web" ∈ (normalize_user_data_to_keys
        [(chars "extra", .str (chars "x"))] [chars "sitio_web"]).map Prod.fst ↔
      chars "sitio_web" ∈ [chars "sitio_web"]) ∧
     (chars "extra" ∈ (normalize_user_data_to_keys
        [(chars "extra", .str (chars "x"))] [chars "sitio_web"]).map Prod.fst ↔
      chars "extra" ∈ [chars "sitio_web"])) ∧
    dictGet (normalize_user_data_to_keys [] [chars "sitio_web"]) (chars "sitio_web")
      = some (.str sinDatos) := by
  have h := normalize_closed_key_set
    [(chars "extra", .str (chars "x"))] [chars "sitio_web"]
  exact ⟨⟨h.1 (chars "sitio_web"), h.1 (chars "extra")⟩,
    (normalize_closed_key_set [] [chars "sitio_web"]).2 (chars "sitio_web")
      (by simp)⟩

/-! ## Claim C2 -/

/-- C2, counterexample: the template line of the claim, with the colon
inside the bold markers, is not matched by LABEL_RE at all — the
pattern requires the colon to be the last non-whitespace character of
the line, after any closing double-star — so field detection yields no
field for it. -/
theorem cliente_marca_bold_colon_not_detected :
    extract_fields [chars "- **Cliente/Marca:**"] = [] := by decide

/-- C2, amended: for the template line with the colon after the
closing bold markers, detection produces raw label Cliente/Marca and
key cliente_marca, reconciliation maps the caller spelling
Cliente / Marca onto it, and assembly rewrites the line with the value
after the colon. -/
theorem cliente_marca_pipeline :
    extract_fields [chars "- **Cliente/Marca**:"] =
      [{ line_idx := 0, raw_label := chars "Cliente/Marca",
         key := chars "cliente_marca" }] ∧
    normalize_user_data_to_keys [(chars "Cliente / Marca", .str (chars "Acme"))]
      [chars "cliente_marca"] = [(chars "cliente_marca", .str (chars "Acme"))] ∧
    assemble_markdown [chars "- **Cliente/Marca**:"]
      (extract_fields [chars "- **Cliente/Marca**:"])
      [(chars "cliente_marca", .str (chars "Acme"))]
    = chars "- **Cliente/Marca**: Acme\n" :=
  ⟨by decide, by rfl, by rfl⟩

/-! ## Claim C3 -/

/-- C3, counterexample: with the single authoritative key a_key, the
caller entries assign v1 by exact match and then v2 by a fuzzy match
of a_kei (similarity 8/10) to the same — already assigned — key: the
exact-match value is overwritten, contradicting the claim. -/
theorem fuzzy_overwrites_exact_match :
    normalize_user_data_to_keys
      [(chars "a_key", .str (chars "v1")), (chars "a_kei", .str (chars "v2"))]
      [chars "a_key"]
    = [(chars "a_key", .str (chars "v2"))] ∧
    dictGet (normalize_user_data_to_keys
      [(chars "a_key", .str (chars "v1")), (chars "a_kei", .str (chars "v2"))]
      [chars "a_key"]) (chars "a_key") ≠ some (.str (chars "v1")) := by
  refine ⟨rfl, ?_⟩
  intro h
  have h2 : some (PyVal.str (chars "v2")) = some (PyVal.str (chars "v1")) := by
    exact Eq.trans (by rfl) h
  injection h2 with h3
  injection h3 with h4
  exact absurd h4 (by decide)

/-- C3, amended: a caller key with no exact match is fuzzy-matched
against all authoritative keys, assigned or not, so a later caller key
can overwrite an exact-match assignment. -/
theorem fuzzy_match_considers_assigned_keys :
    ratioScore (chars "a_key") (chars "a_kei") = (8, 10) ∧
    dictGet (normalize_user_data_to_keys
      [(chars "a_key", .str (chars "v1")), (chars "a_kei", .str (chars "v2"))]
      [chars "a_key"]) (chars "a_key") = some (.str (chars "v2")) :=
  ⟨by decide, by rfl⟩

/-! ## Claim C4 -/

/-- C4, counterexample: the line made of one space and a colon is
matched by LABEL_RE (group 1 takes nothing, the lazy body takes the
space), so extract_fields produces a field whose raw label strips to
the empty string, contradicting the claim. -/
theorem whitespace_colon_line_detected :
    extract_fields [chars " :"] =
      [{ line_idx := 0, raw_label := [], key := [] }] := by decide

/-- C4, amended: a line consisting of exactly one colon and nothing
else is not detected (the label body needs at least one character),
but a colon preceded by whitespace is detected, and the resulting
field has an empty trimmed raw label. -/
theorem bare_colon_line_not_detected :
    extract_fields [chars ":"] = [] ∧
    extract_fields [chars " :"] =
      [{ line_idx := 0, raw_label := [], key := [] }] := by
  exact ⟨by decide, by decide⟩

/-! ## Order lemmas for the get_close_matches maximum -/

/-- Python string less-than is irreflexive. -/
theorem strLtB_irrefl (s : Str) : strLtB s s = false := by
  induction s with
  | nil => rfl
  | cons c cs ih =>
    rw [strLtB, if_neg (lt_irrefl c), if_neg (lt_irrefl c)]
    exact ih

/-- Python string less-than is asymmetric. -/
theorem strLtB_asymm (a b : Str) (h : strLtB a b = true) : strLtB b a = false := by
  induction a generalizing b with
  | nil => cases b with
    | nil => rfl
    | cons d ds => rfl
  | cons c cs ih => cases b with
    | nil => cases h
    | cons d ds =>
      rw [strLtB] at h ⊢
      rcases lt_trichotomy c d with hc | hc | hc
      · rw [if_neg (lt_asymm hc), if_pos hc]
      · subst hc
        rw [if_neg (lt_irrefl c), if_neg (lt_irrefl c)] at h ⊢
        exact ih ds h
      · rw [if_neg (lt_asymm hc), if_pos hc] at h
        cases h

/-- Head-tail characterisation of Python string less-than on cons
cells. -/
theorem strLtB_cons_iff (c d : Char) (cs ds : Str) :
    strLtB (c :: cs) (d :: ds) = true ↔ c < d ∨ (c = d ∧ strLtB cs ds = true) := by
  rw [strLtB]
  rcases lt_trichotomy c d with hc | hc | hc
  · rw [if_pos hc]; simp [hc]
  · subst hc
    rw [if_neg (lt_irrefl c), if_neg (lt_irrefl c)]
    simp
  · rw [if_neg (lt_asymm hc), if_pos hc]
    constructor
    · intro h; cases h
    · rintro (h | ⟨h, _⟩)
      · exact absurd h (lt_asymm hc)
      · subst h; exact absurd hc (lt_irrefl c)

/-- Python string less-than is transitive. -/
theorem strLtB_trans (a b c : Str) (h1 : strLtB a b = true) (h2 : strLtB b c = true) :
    strLtB a c = true := by
  induction a generalizing b c with
  | nil => cases b with
    | nil => cases h1
    | cons d ds => cases c with
      | nil => cases h2
      | cons e es => rfl
  | cons x xs ih => cases b with
    | nil => cases h1
    | cons d ds => cases c with
      | nil => cases h2
      | cons e es =>
        rw [strLtB_cons_iff] at h1 h2 ⊢
        rcases h1 with h1 | ⟨h1, h1'⟩
        · rcases h2 with h2 | ⟨h2, h2'⟩
          · exact Or.inl (lt_trans h1 h2)
          · exact Or.inl (h2 ▸ h1)
        · rcases h2 with h2 | ⟨h2, h2'⟩
          · exact Or.inl (h1 ▸ h2)
          · exact Or.inr ⟨h1.trans h2, ih ds es h1' h2'⟩

/-- Python string less-than is trichotomous. -/
theorem strLtB_tricho (a b : Str) :
    strLtB a b = true ∨ strLtB b a = true ∨ a = b := by
  induction a generalizing b with
  | nil => cases b with
    | nil => exact Or.inr (Or.inr rfl)
    | cons d ds => exact Or.inl rfl
  | cons c cs ih => cases b with
    | nil => exact Or.inr (Or.inl rfl)
    | cons d ds =>
      rcases lt_trichotomy c d with hc | hc | hc
      · exact Or.inl ((strLtB_cons_iff ..).mpr (Or.inl hc))
      · rcases ih ds with h | h | h
        · exact Or.inl ((strLtB_cons_iff ..).mpr (Or.inr ⟨hc, h⟩))
        · exact Or.inr (Or.inl ((strLtB_cons_iff ..).mpr (Or.inr ⟨hc.symm, h⟩)))
        · exact Or.inr (Or.inr (by rw [hc, h]))
      · exact Or.inr (Or.inl ((strLtB_cons_iff ..).mpr (Or.inl hc)))

/-- The weak order induced by Python string less-than is transitive. -/
theorem strLtB_notlt_trans (a b c : Str) (h1 : strLtB b a = false)
    (h2 : strLtB c b = false) : strLtB c a = false := by
  by_contra h3
  rw [Bool.not_eq_false] at h3
  rcases strLtB_tricho b a with hb | hb | hb
  · simp [h1] at hb
  · have := strLtB_trans c a b h3 hb
    simp [h2] at this
  · subst hb
    simp [h2] at h3

/-- Transitivity of fraction comparison by cross multiplication: from
a1/p le b1/q and b1/q le c1/r conclude a1/p le c1/r. -/
theorem crossmul_le_trans {a1 p b1 q c1 r : ℕ} (hq : 0 < q)
    (h1 : q * a1 ≤ p * b1) (h2 : r * b1 ≤ q * c1) : r * a1 ≤ p * c1 := by
  have h3 : q * (r * a1) ≤ q * (p * c1) := by
    calc q * (r * a1) = r * (q * a1) := by ring
    _ ≤ r * (p * b1) := mul_le_mul_left' h1 r
    _ = p * (r * b1) := by ring
    _ ≤ p * (q * c1) := mul_le_mul_left' h2 p
    _ = q * (p * c1) := by ring
  exact Nat.le_of_mul_le_mul_left h3 hq

/-- Mixed strict transitivity of cross-multiplied fractions, strict on
the left. -/
theorem crossmul_lt_of_lt_le {a1 p b1 q c1 r : ℕ} (hr : 0 < r)
    (h1 : q * a1 < p * b1) (h2 : r * b1 ≤ q * c1) : r * a1 < p * c1 := by
  have h3 : q * (r * a1) < q * (p * c1) := by
    calc q * (r * a1) = r * (q * a1) := by ring
    _ < r * (p * b1) := mul_lt_mul_of_pos_left h1 hr
    _ = p * (r * b1) := by ring
    _ ≤ p * (q * c1) := mul_le_mul_left' h2 p
    _ = q * (p * c1) := by ring
  exact lt_of_mul_lt_mul_left h3 (Nat.zero_le q)

/-- Mixed strict transitivity of cross-multiplied fractions, strict on
the right. -/
theorem crossmul_lt_of_le_lt {a1 p b1 q c1 r : ℕ} (hp : 0 < p)
    (h1 : q * a1 ≤ p * b1) (h2 : r * b1 < q * c1) : r * a1 < p * c1 := by
  have h3 : q * (r * a1) < q * (p * c1) := by
    calc q * (r * a1) = r * (q * a1) := by ring
    _ ≤ r * (p * b1) := mul_le_mul_left' h1 r
    _ = p * (r * b1) := by ring
    _ < p * (q * c1) := mul_lt_mul_of_pos_left h2 hp
    _ = q * (p * c1) := by ring
  exact lt_of_mul_lt_mul_left h3 (Nat.zero_le q)

/-- Unfolding of the negation of the Python tuple comparison used by
get_close_matches: x is not greater than y exactly when its score is
at most y's and, on score equality, y's string is not below x's. -/
theorem pairGt_eq_false_iff (x y : (Nat × Nat) × Str) :
    pairGt x y = false ↔
      y.1.2 * x.1.1 ≤ x.1.2 * y.1.1 ∧
        (y.1.2 * x.1.1 = x.1.2 * y.1.1 → strLtB y.2 x.2 = false) := by
  rw [pairGt, Bool.or_eq_false_iff, Bool.and_eq_false_iff]
  rw [scoreGt, scoreEq]
  simp only [decide_eq_false_iff_not, not_lt, gt_iff_lt]
  constructor
  · rintro ⟨hle, hor⟩
    refine ⟨hle, fun he => ?_⟩
    rcases hor with h | h
    · exact absurd he h
    · exact h
  · rintro ⟨hle, him⟩
    refine ⟨hle, ?_⟩
    by_cases he : y.1.2 * x.1.1 = x.1.2 * y.1.1
    · exact Or.inr (him he)
    · exact Or.inl he

/-- The Python tuple comparison is irreflexive. -/
theorem pairGt_irrefl (x : (Nat × Nat) × Str) : pairGt x x = false := by
  rw [pairGt_eq_false_iff]
  exact ⟨le_refl _, fun _ => strLtB_irrefl x.2⟩

/-- The Python tuple comparison is asymmetric. -/
theorem pairGt_asymm (x y : (Nat × Nat) × Str) (h : pairGt x y = true) :
    pairGt y x = false := by
  rw [pairGt, Bool.or_eq_true, Bool.and_eq_true] at h
  rw [pairGt_eq_false_iff]
  rcases h with h | ⟨he, hs⟩
  · rw [scoreGt, decide_eq_true_eq] at h
    exact ⟨le_of_lt h, fun he2 => absurd (he2 ▸ h) (lt_irrefl _)⟩
  · rw [scoreEq, decide_eq_true_eq] at he
    exact ⟨le_of_eq he.symm, fun _ => strLtB_asymm _ _ hs⟩

/-- The weak order induced by the Python tuple comparison is
transitive, provided score denominators are positive. -/
theorem pairGt_notGt_trans (a b c : (Nat × Nat) × Str)
    (hp : 0 < a.1.2) (hq : 0 < b.1.2) (hr : 0 < c.1.2)
    (h1 : pairGt a b = false) (h2 : pairGt b c = false) : pairGt a c = false := by
  rw [pairGt_eq_false_iff] at h1 h2 ⊢
  obtain ⟨h1le, h1im⟩ := h1
  obtain ⟨h2le, h2im⟩ := h2
  refine ⟨crossmul_le_trans hq h1le h2le, fun heq => ?_⟩
  have e1 : b.1.2 * a.1.1 = a.1.2 * b.1.1 := by
    rcases lt_or_eq_of_le h1le with hlt | he
    · exact absurd (crossmul_lt_of_lt_le hr hlt h2le) (by omega)
    · exact he
  have e2 : c.1.2 * b.1.1 = b.1.2 * c.1.1 := by
    rcases lt_or_eq_of_le h2le with hlt | he
    · exact absurd (crossmul_lt_of_le_lt hp h1le hlt) (by omega)
    · exact he
  exact strLtB_notlt_trans a.2 b.2 c.2 (h1im e1) (h2im e2)

/-- Python max returns an element of the scanned list. -/
theorem pyMaxAux_mem (xs : List ((Nat × Nat) × Str)) (best : (Nat × Nat) × Str) :
    pyMaxAux xs best = best ∨ pyMaxAux xs best ∈ xs := by
  induction xs generalizing best with
  | nil => exact Or.inl rfl
  | cons x xs ih =>
    rw [pyMaxAux]
    by_cases h : pairGt x best = true
    · rw [if_pos h]
      rcases ih x with h1 | h1
      · right; rw [h1]; exact List.mem_cons_self _ _
      · right; exact List.mem_cons_of_mem _ h1
    · rw [if_neg h]
      rcases ih best with h1 | h1
      · left; exact h1
      · right; exact List.mem_cons_of_mem _ h1

/-- Python max returns a maximum: no scanned element is greater than
the result in the tuple order. -/
theorem pyMaxAux_max (xs : List ((Nat × Nat) × Str)) (best : (Nat × Nat) × Str)
    (hb : 0 < best.1.2) (hxs : ∀ p ∈ xs, 0 < p.1.2) :
    pairGt best (pyMaxAux xs best) = false ∧
      ∀ p ∈ xs, pairGt p (pyMaxAux xs best) = false := by
  induction xs generalizing best with
  | nil => exact ⟨pairGt_irrefl best, by intro p hp; cases hp⟩
  | cons x xs ih =>
    have hx : 0 < x.1.2 := hxs x (List.mem_cons_self _ _)
    have hxs' : ∀ p ∈ xs, 0 < p.1.2 := fun p hp => hxs p (List.mem_cons_of_mem _ hp)
    by_cases h : pairGt x best = true
    · have hstep : pyMaxAux (x :: xs) best = pyMaxAux xs x := by
        show pyMaxAux xs (if pairGt x best then x else best) = _
        rw [if_pos h]
      have ihr := ih x hx hxs'
      have hmpos : 0 < (pyMaxAux xs x).1.2 := by
        rcases pyMaxAux_mem xs x with h1 | h1
        · rw [h1]; exact hx
        · exact hxs' _ h1
      rw [hstep]
      refine ⟨pairGt_notGt_trans best x (pyMaxAux xs x) hb hx hmpos
        (pairGt_asymm x best h) ihr.1, ?_⟩
      intro p hp
      rcases List.mem_cons.mp hp with he | hm
      · rw [he]; exact ihr.1
      · exact ihr.2 p hm
    · have hstep : pyMaxAux (x :: xs) best = pyMaxAux xs best := by
        show pyMaxAux xs (if pairGt x best then x else best) = _
        rw [if_neg h]
      have ihr := ih best hb hxs'
      have hmpos : 0 < (pyMaxAux xs best).1.2 := by
        rcases pyMaxAux_mem xs best with h1 | h1
        · rw [h1]; exact hb
        · exact hxs' _ h1
      rw [hstep]
      refine ⟨ihr.1, ?_⟩
      intro p hp
      rcases List.mem_cons.mp hp with he | hm
      · rw [he]
        exact pairGt_notGt_trans x best (pyMaxAux xs best) hx hb hmpos
          (Bool.not_eq_true _ ▸ h : pairGt x best = false) ihr.1
      · exact ihr.2 p hm

/-- Denominators of ratio scores are positive. -/
theorem ratioScore_snd_pos (a b : Str) : 0 < (ratioScore a b).2 := by
  rw [ratioScore, scoreOf]
  split
  · exact Nat.one_pos
  · next h => exact Nat.pos_of_ne_zero h

/-- Every candidate kept by the cutoff filter of get_close_matches is
a possibility, carries its own ratio score, and reaches the cutoff. -/
theorem gcmCandidates_sound (word : Str) (cn cd : Nat) (ps : List Str) :
    ∀ p ∈ gcmCandidates word cn cd ps,
      p.2 ∈ ps ∧ p.1 = ratioScore p.2 word ∧
        scoreGe (ratioScore p.2 word) cn cd = true := by
  induction ps with
  | nil => intro p hp; cases hp
  | cons x xs ih =>
    intro p hp
    rw [gcmCandidates] at hp
    split at hp
    · next hcond =>
      rcases List.mem_cons.mp hp with he | hm
      · subst he
        exact ⟨List.mem_cons_self _ _, rfl, hcond.2.2⟩
      · have := ih p hm
        exact ⟨List.mem_cons_of_mem _ this.1, this.2⟩
    · have := ih p hp
      exact ⟨List.mem_cons_of_mem _ this.1, this.2⟩

/-- Every possibility whose three ratios reach the cutoff is kept by
the filter of get_close_matches. -/
theorem gcmCandidates_complete (word : Str) (cn cd : Nat) (ps : List Str)
    (k : Str) (hk : k ∈ ps)
    (h1 : scoreGe (realQuickScore k word) cn cd = true)
    (h2 : scoreGe (quickScore k word) cn cd = true)
    (h3 : scoreGe (ratioScore k word) cn cd = true) :
    (ratioScore k word, k) ∈ gcmCandidates word cn cd ps := by
  induction ps with
  | nil => cases hk
  | cons x xs ih =>
    rw [gcmCandidates]
    rcases List.mem_cons.mp hk with he | hm
    · subst he
      rw [if_pos ⟨h1, h2, h3⟩]
      exact List.mem_cons_self _ _
    · split
      · exact List.mem_cons_of_mem _ (ih hm)
      · exact ih hm

/-! ## Claim C5 -/

/-- C5, counterexample: abcda and abcdb, in this template order, tie
at similarity 8/10 for the caller key abcdx, yet the value lands on
abcdb and the first-enumerated key abcda keeps the sentinel —
contradicting first-enumerated-wins. -/
theorem tie_break_not_template_order :
    normalize_user_data_to_keys [(chars "abcdx", .str (chars "v"))]
      [chars "abcda", chars "abcdb"]
    = [(chars "abcda", .str sinDatos), (chars "abcdb", .str (chars "v"))] ∧
    dictGet (normalize_user_data_to_keys [(chars "abcdx", .str (chars "v"))]
      [chars "abcda", chars "abcdb"]) (chars "abcda") ≠ some (.str (chars "v")) := by
  refine ⟨rfl, ?_⟩
  intro h
  have h2 : some (PyVal.str sinDatos) = some (PyVal.str (chars "v")) := by
    exact Eq.trans (by rfl) h
  injection h2 with h3
  injection h3 with h4
  exact absurd h4 (by decide)

/-- C5, amended: whenever the fuzzy matcher of the reconciliation
returns a key, that key reaches the cutoff and, against every other
possibility that reaches the cutoff, has either a strictly greater
similarity ratio or an equal ratio and is not lexicographically below
it: ties are broken toward the lexicographically greatest tied key,
for all inputs and cutoffs. The conjoined instance runs the whole
reconciliation with the tied keys in the enumeration order abcdb,
abcda, where the lexicographically greatest tied key is enumerated
first, so together with the counterexample the policy is separated
from both first-enumerated-wins and last-enumerated-wins. -/
theorem tie_break_lexicographically_greatest :
    (∀ (word : Str) (keys : List Str) (cn cd : Nat) (k : Str),
        get_close_matches1 word keys cn cd = some k →
        (k ∈ keys ∧ scoreGe (ratioScore k word) cn cd = true) ∧
          ∀ k2 ∈ keys,
            scoreGe (realQuickScore k2 word) cn cd = true →
            scoreGe (quickScore k2 word) cn cd = true →
            scoreGe (ratioScore k2 word) cn cd = true →
            scoreGt (ratioScore k word) (ratioScore k2 word) = true ∨
              (scoreEq (ratioScore k word) (ratioScore k2 word) = true ∧
                strLtB k k2 = false)) ∧
    normalize_user_data_to_keys [(chars "abcdx", .str (chars "v"))]
        [chars "abcdb", chars "abcda"]
      = [(chars "abcdb", .str (chars "v")), (chars "abcda", .str sinDatos)] := by
  refine ⟨?_, by rfl⟩
  intro word keys cn cd k h
  rw [get_close_matches1] at h
  split at h
  · cases h
  · next x xs heq =>
    injection h with hk
    have hmemc : pyMaxAux xs x ∈ x :: xs := by
      rcases pyMaxAux_mem xs x with h1 | h1
      · rw [h1]; exact List.mem_cons_self _ _
      · exact List.mem_cons_of_mem _ h1
    obtain ⟨hmk, hmr, hmge⟩ := gcmCandidates_sound word cn cd keys (pyMaxAux xs x)
      (by rw [heq]; exact hmemc)
    subst hk
    refine ⟨⟨hmk, hmge⟩, ?_⟩
    intro k2 hk2 hq1 hq2 hq3
    have hc2 : (ratioScore k2 word, k2) ∈ x :: xs := by
      rw [← heq]
      exact gcmCandidates_complete word cn cd keys k2 hk2 hq1 hq2 hq3
    have hpos : ∀ p ∈ x :: xs, 0 < p.1.2 := by
      intro p hp
      have := (gcmCandidates_sound word cn cd keys p (by rw [heq]; exact hp)).2.1
      rw [this]
      exact ratioScore_snd_pos _ _
    have hmax := pyMaxAux_max xs x (hpos x (List.mem_cons_self _ _))
      (fun p hp => hpos p (List.mem_cons_of_mem _ hp))
    have hng : pairGt (ratioScore k2 word, k2) (pyMaxAux xs x) = false := by
      rcases List.mem_cons.mp hc2 with he | hm2
      · rw [he]; exact hmax.1
      · exact hmax.2 _ hm2
    rw [pairGt_eq_false_iff] at hng
    rw [hmr] at hng
    obtain ⟨hle, him⟩ := hng
    rcases lt_or_eq_of_le hle with hlt | he2
    · left
      rw [scoreGt, decide_eq_true_eq]
      exact hlt
    · right
      constructor
      · rw [scoreEq, decide_eq_true_eq]
        exact he2.symm
      · exact him he2

/-- C5, witness for the amended theorem: applied to the caller key
abcdx over the possibilities abcda and abcdb with cutoff 4/5, the
returned key abcdb reaches the cutoff and, against the tied key abcda,
has equal ratio and is not lexicographically below it. -/
theorem tie_break_lexicographically_greatest_witness :
    (chars "abcdb" ∈ [chars "abcda", chars "abcdb"] ∧
      scoreGe (ratioScore (chars "abcdb") (chars "abcdx")) 4 5 = true) ∧
    (scoreGt (ratioScore (chars "abcdb") (chars "abcdx"))
        (ratioScore (chars "abcda") (chars "abcdx")) = true ∨
      (scoreEq (ratioScore (chars "abcdb") (chars "abcdx"))
          (ratioScore (chars "abcda") (chars "abcdx")) = true ∧
        strLtB (chars "abcdb") (chars "abcda") = false)) := by
  have h := tie_break_lexicographically_greatest.1 (chars "abcdx")
    [chars "abcda", chars "abcdb"] 4 5 (chars "abcdb") (by decide)
  exact ⟨h.1, h.2 (chars "abcda") (by decide) (by decide) (by decide) (by decide)⟩

/-! ## Claim C7 -/

set_option maxRecDepth 200000 in
/-- C7: the fuzzy cutoff is inclusive at 0.8, exercised with literal
computed ratios: a caller key at similarity exactly 4/5 is assigned to
the authoritative key, and one whose only candidate sits at similarity
exactly 79/100 is dropped, leaving the sentinel. -/
theorem fuzzy_cutoff_inclusive :
    ratio (chars "claxa") (chars "claxo") = 4 / 5 ∧
    dictGet (normalize_user_data_to_keys [(chars "claxo", .str (chars "v"))]
      [chars "claxa"]) (chars "claxa") = some (.str (chars "v")) ∧
    ratio keyA79 word121 = 79 / 100 ∧
    normalize_user_data_to_keys [(word121, .str (chars "v"))] [keyA79]
      = [(keyA79, .str sinDatos)] := by
  refine ⟨?_, by rfl, ?_, by rfl⟩
  · rw [ratio, show ratioScore (chars "claxa") (chars "claxo") = (8, 10) from by decide]
    norm_num
  · rw [ratio, show ratioScore keyA79 word121 = (158, 200) from by decide]
    norm_num

/-! ## Assembly lemmas -/

theorem assembleLines_length (data : List (Str × PyVal)) :
    ∀ (fields : List Field) (out : List Str),
    (fields.foldl (assembleStep data) out).length = out.length := by
  intro fields
  induction fields with
  | nil => intro out; rfl
  | cons g fs ih =>
    intro out
    rw [List.foldl_cons, ih, assembleStep, List.length_set]

theorem assembleLines_frame (data : List (Str × PyVal)) :
    ∀ (fields : List Field) (out : List Str) (j : Nat),
    (∀ f, f ∈ fields → f.line_idx ≠ j) →
    (fields.foldl (assembleStep data) out)[j]? = out[j]? := by
  intro fields
  induction fields with
  | nil =>
    intro out j _
    rfl
  | cons g fs ih =>
    intro out j h
    rw [List.foldl_cons, ih _ _ (fun f hf => h f (List.mem_cons_of_mem _ hf)),
      assembleStep]
    exact List.getElem?_set_ne (h g (List.mem_cons_self _ _))

theorem assembleLines_at_field (data : List (Str × PyVal)) :
    ∀ (fields : List Field) (out : List Str) (f : Field),
    f ∈ fields → fields.Pairwise (fun g h => g.line_idx ≠ h.line_idx) →
    f.line_idx < out.length →
    (fields.foldl (assembleStep data) out)[f.line_idx]? =
      some (rewriteLine (out.getD f.line_idx [])
        (ensure_value ((dictGet data f.key).getD (PyVal.str [])))) := by
  intro fields
  induction fields with
  | nil =>
    intro out f hf _ _
    cases hf
  | cons g fs ih =>
    intro out f hf hd hl
    rw [List.foldl_cons]
    rcases List.mem_cons.1 hf with rfl | hf2
    · rw [assembleLines_frame data fs _ _
        (fun f2 h2 => Ne.symm ((List.pairwise_cons.1 hd).1 f2 h2)), assembleStep]
      exact List.getElem?_set_self hl
    · have hgne : g.line_idx ≠ f.line_idx := (List.pairwise_cons.1 hd).1 f hf2
      have h1 : (assembleStep data out g).getD f.line_idx [] = out.getD f.line_idx [] := by
        rw [assembleStep]
        simp [List.getD, List.getElem?_set_ne hgne]
      have h2 : f.line_idx < (assembleStep data out g).length := by
        rw [assembleStep, List.length_set]
        exact hl
      rw [ih _ f hf2 (List.pairwise_cons.1 hd).2 h2, h1]

/-! ## Index lemmas for extract_fields -/

theorem extractFieldsAux_idx_bounds : ∀ (lines : List Str) (i : Nat) (f : Field),
    f ∈ extractFieldsAux i lines → i ≤ f.line_idx ∧ f.line_idx < i + lines.length := by
  intro lines
  induction lines with
  | nil =>
    intro i f hf
    cases hf
  | cons ln rest ih =>
    intro i f hf
    cases h : labelMatch ln with
    | none =>
      simp only [extractFieldsAux, h] at hf
      have := ih (i + 1) f hf
      simp only [List.length_cons]
      omega
    | some g =>
      simp only [extractFieldsAux, h] at hf
      rcases List.mem_cons.1 hf with rfl | hf2
      · simp only [List.length_cons]
        omega
      · have := ih (i + 1) f hf2
        simp only [List.length_cons]
        omega

theorem extractFieldsAux_pairwise : ∀ (lines : List Str) (i : Nat),
    (extractFieldsAux i lines).Pairwise (fun g h => g.line_idx ≠ h.line_idx) := by
  intro lines
  induction lines with
  | nil =>
    intro i
    exact List.Pairwise.nil
  | cons ln rest ih =>
    intro i
    cases h : labelMatch ln with
    | none =>
      simp only [extractFieldsAux, h]
      exact ih (i + 1)
    | some g =>
      simp only [extractFieldsAux, h]
      refine List.pairwise_cons.2 ⟨?_, ih (i + 1)⟩
      intro f2 h2
      have := (extractFieldsAux_idx_bounds rest (i + 1) f2 h2).1
      show i ≠ f2.line_idx
      omega

theorem extract_fields_idx_lt (lines : List Str) (f : Field)
    (hf : f ∈ extract_fields lines) : f.line_idx < lines.length := by
  have := (extractFieldsAux_idx_bounds lines 0 f hf).2
  omega

theorem extract_fields_pairwise (lines : List Str) :
    (extract_fields lines).Pairwise (fun g h => g.line_idx ≠ h.line_idx) :=
  extractFieldsAux_pairwise lines 0

/-! ## Last-colon lemmas -/

theorem indicesOfAux_append_singleton (c a : Char) : ∀ (l : Str) (j : Nat),
    indicesOfAux c j (l ++ [a]) =
      indicesOfAux c j l ++ (if a = c then [j + l.length] else []) := by
  intro l
  induction l with
  | nil =>
    intro j
    simp [indicesOfAux]
  | cons x xs ih =>
    intro j
    rw [List.cons_append, indicesOfAux, indicesOfAux]
    have harith : j + 1 + xs.length = j + (x :: xs).length := by
      simp only [List.length_cons]
      omega
    by_cases hx : x = c
    · rw [if_pos hx, if_pos hx, ih, harith, List.cons_append]
    · rw [if_neg hx, if_neg hx, ih, harith]

theorem indicesOfAux_bounds (c : Char) : ∀ (l : Str) (j x : Nat),
    x ∈ indicesOfAux c j l → j ≤ x ∧ x < j + l.length := by
  intro l
  induction l with
  | nil =>
    intro j x hx
    cases hx
  | cons y ys ih =>
    intro j x hx
    rw [indicesOfAux] at hx
    by_cases hy : y = c
    · rw [if_pos hy] at hx
      rcases List.mem_cons.1 hx with rfl | hx2
      · simp only [List.length_cons]
        omega
      · have := ih (j + 1) x hx2
        simp only [List.length_cons]
        omega
    · rw [if_neg hy] at hx
      have := ih (j + 1) x hx
      simp only [List.length_cons]
      omega

theorem pyRFind_lt_length (l : Str) (c : Char) (i : Nat)
    (h : pyRFind l c = some i) : i < l.length := by
  have hmem : i ∈ indicesOf l c := by
    rcases List.mem_getLast?_eq_getLast (l := indicesOf l c) (x := i) h with ⟨hne, heq⟩
    exact heq ▸ List.getLast_mem hne
  have := indicesOfAux_bounds c l 0 i hmem
  omega

theorem rewriteLine_colon_spec (line : Str) :
    (pyRFind line ':' = none ∧ upToLastColon line = []) ∨
    (∃ i, pyRFind line ':' = some i ∧ line.take (i + 1) = upToLastColon line ∧
      upToLastColon line ≠ []) := by
  induction line using List.reverseRecOn with
  | nil => exact Or.inl ⟨rfl, rfl⟩
  | append_singleton l a ih =>
    by_cases ha : a = ':'
    · right
      refine ⟨l.length, ?_, ?_, ?_⟩
      · rw [pyRFind, indicesOf, indicesOfAux_append_singleton, if_pos ha]
        simp only [Nat.zero_add]
        exact List.getLast?_concat _
      · rw [List.take_of_length_le (by simp), upToLastColon, List.reverse_append,
          List.reverse_singleton, List.singleton_append, List.dropWhile_cons]
        have hpa : (decide (a ≠ ':')) = false := by
          simp [ha]
        rw [hpa]
        simp
      · rw [upToLastColon, List.reverse_append, List.reverse_singleton,
          List.singleton_append, List.dropWhile_cons]
        have hpa : (decide (a ≠ ':')) = false := by
          simp [ha]
        rw [hpa]
        simp
    · have hstep : upToLastColon (l ++ [a]) = upToLastColon l := by
        rw [upToLastColon, upToLastColon, List.reverse_append, List.reverse_singleton,
          List.singleton_append, List.dropWhile_cons]
        have hpa : (decide (a ≠ ':')) = true := by
          simp [ha]
        rw [hpa]
        simp
      have hfind : pyRFind (l ++ [a]) ':' = pyRFind l ':' := by
        rw [pyRFind, pyRFind, indicesOf, indicesOf, indicesOfAux_append_singleton,
          if_neg ha, List.append_nil]
      rcases ih with ⟨h1, h2⟩ | ⟨i, h1, h2, h3⟩
      · exact Or.inl ⟨hfind.trans h1, hstep.trans h2⟩
      · refine Or.inr ⟨i, hfind.trans h1, ?_, hstep ▸ h3⟩
        rw [List.take_append_of_le_length (pyRFind_lt_length l ':' i h1), h2, hstep]

theorem rewriteLine_spec (line val : Str) :
    rewriteLine line val =
      if upToLastColon line = [] then pyRStrip line ++ ' ' :: val
      else upToLastColon line ++ ' ' :: val := by
  rcases rewriteLine_colon_spec line with ⟨h1, h2⟩ | ⟨i, h1, h2, h3⟩
  · rw [rewriteLine, h1, if_pos h2]
  · rw [rewriteLine, h1, if_neg h3, ← h2]

/-! ## Claim C8 -/

/-- C8: for every template and every mapping, a line whose index is
the position of no Field of the index appears unchanged at the same
position in the assembled line list, whose length also matches the
template: assembly modifies only the lines listed in the field
index. -/
theorem assemble_untouched_lines (lines : List Str) (data : List (Str × PyVal))
    (j : Nat) (h : ∀ f, f ∈ extract_fields lines → f.line_idx ≠ j) :
    (assembleLines lines (extract_fields lines) data)[j]? = lines[j]? ∧
    (assembleLines lines (extract_fields lines) data).length = lines.length :=
  ⟨assembleLines_frame data _ lines j h, assembleLines_length data _ lines⟩

/-- Witness for C8: in a two-line template whose only field sits on
line 1, line 0 passes through assembly untouched. -/
theorem assemble_untouched_lines_witness :
    (∀ f, f ∈ extract_fields [chars "x", chars "A:"] → f.line_idx ≠ 0) ∧
    (assembleLines [chars "x", chars "A:"] (extract_fields [chars "x", chars "A:"])
      [])[0]? = some (chars "x") := by
  have h : ∀ f, f ∈ extract_fields [chars "x", chars "A:"] → f.line_idx ≠ 0 := by
    decide
  exact ⟨h, ((assemble_untouched_lines [chars "x", chars "A:"] [] 0 h).1).trans (by rfl)⟩

/-! ## Claim C6 -/

/-- C6: every Field of the index has its line rewritten from the
original template line: everything up to and including the last colon
of the line, a space, and the coerced value for the key (the default
empty string, hence the sentinel, when the key is absent); when the
line has no colon the value is appended after the right-stripped line
instead.  Sequential in-place updates never interfere because field
positions are pairwise distinct. -/
theorem assemble_rewrites_each_field (lines : List Str) (data : List (Str × PyVal))
    (f : Field) (hf : f ∈ extract_fields lines) :
    (assembleLines lines (extract_fields lines) data)[f.line_idx]? =
      some (if upToLastColon (lines.getD f.line_idx []) = []
        then pyRStrip (lines.getD f.line_idx []) ++ ' ' ::
          ensure_value ((dictGet data f.key).getD (PyVal.str []))
        else upToLastColon (lines.getD f.line_idx []) ++ ' ' ::
          ensure_value ((dictGet data f.key).getD (PyVal.str []))) ∧
    (dictGet data f.key = none →
      ensure_value ((dictGet data f.key).getD (PyVal.str [])) = sinDatos) := by
  constructor
  · rw [← rewriteLine_spec]
    exact assembleLines_at_field data (extract_fields lines) lines f hf
      (extract_fields_pairwise lines) (extract_fields_idx_lt lines f hf)
  · intro habs
    rw [habs]
    rfl

/-- Witness for C6: the single-line template with field key a and an
empty mapping assembles its line to the label, the colon, a space and
the sentinel. -/
theorem assemble_rewrites_each_field_witness :
    ((⟨0, chars "A", chars "a"⟩ : Field) ∈ extract_fields [chars "A:"]) ∧
    (assembleLines [chars "A:"] (extract_fields [chars "A:"]) [])[0]? =
      some (chars "A: Sin datos") := by
  have hm : (⟨0, chars "A", chars "a"⟩ : Field) ∈ extract_fields [chars "A:"] := by
    decide
  refine ⟨hm, ?_⟩
  have h := (assemble_rewrites_each_field [chars "A:"] [] _ hm).1
  rw [h]
  rfl

/-! ## Strip lemmas -/

theorem dropWhile_head_not (p : Char → Bool) : ∀ (l : Str) (c : Char) (cs : Str),
    l.dropWhile p = c :: cs → p c = false := by
  intro l
  induction l with
  | nil =>
    intro c cs h
    cases h
  | cons x xs ih =>
    intro c cs h
    rw [List.dropWhile_cons] at h
    by_cases hx : p x
    · rw [if_pos hx] at h
      exact ih c cs h
    · rw [if_neg hx] at h
      cases h
      exact eq_false_of_ne_true hx

theorem rstripP_idem (p : Char → Bool) : ∀ (l : Str),
    rstripP p (rstripP p l) = rstripP p l := by
  intro l
  induction l with
  | nil => rfl
  | cons c cs ih =>
    rw [rstripP]
    cases h : rstripP p cs with
    | nil =>
      by_cases hc : p c
      · rw [if_pos hc]
        rfl
      · rw [if_neg hc, rstripP, rstripP, if_neg hc]
    | cons r rs =>
      rw [rstripP]
      have ih2 : rstripP p (r :: rs) = r :: rs := by
        rw [← h, ih, h]
      rw [ih2]

theorem rstripP_eq_self_of_last (p : Char → Bool) : ∀ (l : Str) (d : Char),
    l.getLast? = some d → p d = false → rstripP p l = l := by
  intro l
  induction l with
  | nil =>
    intro d h _
    cases h
  | cons c cs ih =>
    intro d h hd
    cases cs with
    | nil =>
      have hdc : c = d := by
        rw [List.getLast?_singleton] at h
        exact Option.some.inj h
      rw [rstripP, rstripP, hdc, hd]
      rfl
    | cons y ys =>
      rw [List.getLast?_cons_cons] at h
      rw [rstripP, ih d h hd]

theorem rstripP_cons_head (p : Char → Bool) (c : Char) (cs rs : Str) (r : Char)
    (h : rstripP p (c :: cs) = r :: rs) : r = c := by
  rw [rstripP] at h
  split at h
  · by_cases hc : p c
    · rw [if_pos hc] at h
      cases h
    · rw [if_neg hc] at h
      cases h
      rfl
  · cases h
    rfl

theorem pyStrip_idem (l : Str) : pyStrip (pyStrip l) = pyStrip l := by
  have hinner : pyStrip l = rstripP isPySpace (l.dropWhile isPySpace) := rfl
  cases h : l.dropWhile isPySpace with
  | nil =>
    rw [pyStrip, hinner, h]
    rfl
  | cons c cs =>
    have hc : isPySpace c = false := dropWhile_head_not isPySpace l c cs h
    rw [pyStrip, hinner, h]
    cases h2 : rstripP isPySpace (c :: cs) with
    | nil => rfl
    | cons r rs =>
      have hr : r = c := rstripP_cons_head isPySpace c cs rs r h2
      have hidem := rstripP_idem isPySpace (c :: cs)
      rw [h2] at hidem
      rw [List.dropWhile_cons, hr, hc]
      simpa [hr] using hidem

theorem pyStrip_eq_self_of_ends (l : Str) (c d : Char)
    (hh : l.head? = some c) (hc : isPySpace c = false)
    (hl : l.getLast? = some d) (hd : isPySpace d = false) :
    pyStrip l = l := by
  cases l with
  | nil => cases hh
  | cons x xs =>
    cases hh
    rw [pyStrip, List.dropWhile_cons, hc]
    show rstripP isPySpace (c :: xs) = c :: xs
    exact rstripP_eq_self_of_last isPySpace (c :: xs) d hl hd

/-! ## Shape lemmas for rendered values -/

theorem natReprAux_all_digits : ∀ (fuel n : Nat) (c : Char),
    c ∈ natReprAux fuel n → ∃ d, d < 10 ∧ c = digitChar d := by
  intro fuel
  induction fuel with
  | zero =>
    intro n c h
    cases h
  | succ fuel ih =>
    intro n c h
    rw [natReprAux] at h
    by_cases hn : n < 10
    · rw [if_pos hn] at h
      rcases List.mem_singleton.1 h with rfl
      exact ⟨n, hn, rfl⟩
    · rw [if_neg hn] at h
      rcases List.mem_append.1 h with h2 | h2
      · exact ih (n / 10) c h2
      · rcases List.mem_singleton.1 h2 with rfl
        exact ⟨n % 10, Nat.mod_lt _ (by omega), rfl⟩

theorem digitChar_not_space (d : Nat) (h : d < 10) : isPySpace (digitChar d) = false := by
  interval_cases d <;> decide

theorem natRepr_ne_nil (n : Nat) : natRepr n ≠ [] := by
  rw [natRepr, natReprAux]
  by_cases hn : n < 10
  · rw [if_pos hn]
    simp
  · rw [if_neg hn]
    simp

theorem natRepr_strip (n : Nat) : pyStrip (natRepr n) = natRepr n := by
  rcases List.exists_cons_of_ne_nil (natRepr_ne_nil n) with ⟨c, cs, hc⟩
  have hhead : (natRepr n).head? = some c := by
    rw [hc]
    rfl
  have hcm : c ∈ natRepr n := by
    rw [hc]
    exact List.mem_cons_self _ _
  have hlast : ∃ d, (natRepr n).getLast? = some d ∧ d ∈ natRepr n := by
    refine ⟨(natRepr n).getLast (by rw [hc]; simp), ?_, ?_⟩
    · exact List.getLast?_eq_getLast _ _
    · exact List.getLast_mem _
  rcases hlast with ⟨d, hd1, hd2⟩
  rcases natReprAux_all_digits _ _ c hcm with ⟨dc, hdc, rfl⟩
  rcases natReprAux_all_digits _ _ d hd2 with ⟨dd, hdd, rfl⟩
  exact pyStrip_eq_self_of_ends _ _ _ hhead (digitChar_not_space _ hdc)
    hd1 (digitChar_not_space _ hdd)

theorem intRepr_strip (n : Int) : pyStrip (intRepr n) = intRepr n ∧ intRepr n ≠ [] := by
  cases n with
  | ofNat m => exact ⟨natRepr_strip m, natRepr_ne_nil m⟩
  | negSucc m =>
    rw [intRepr]
    constructor
    · rcases List.exists_cons_of_ne_nil (natRepr_ne_nil (m + 1)) with ⟨c, cs, hc⟩
      have hlast : ∃ d, (natRepr (m + 1)).getLast? = some d ∧ d ∈ natRepr (m + 1) := by
        refine ⟨(natRepr (m + 1)).getLast (by rw [hc]; simp), ?_, ?_⟩
        · exact List.getLast?_eq_getLast _ _
        · exact List.getLast_mem _
      rcases hlast with ⟨d, hd1, hd2⟩
      rcases natReprAux_all_digits _ _ d hd2 with ⟨dd, hdd, rfl⟩
      refine pyStrip_eq_self_of_ends _ '-' _ rfl (by decide) ?_
        (digitChar_not_space _ hdd)
      rcases List.exists_cons_of_ne_nil (natRepr_ne_nil (m + 1)) with ⟨c2, cs2, hc2⟩
      rw [hc2] at hd1 ⊢
      rw [List.getLast?_cons_cons]
      exact hd1
    · simp

theorem pyJson_dict_shape (kvs : List (Str × PyVal)) :
    pyJson (.dict kvs) = Char.ofNat 123 :: (pyJsonEntries kvs ++ [Char.ofNat 125]) := by
  rw [pyJson]

theorem pyJson_list_shape (xs : List PyVal) :
    pyJson (.list xs) = '[' :: (pyJsonItems xs ++ [']']) := by
  rw [pyJson]

theorem pyJson_dict_strip (kvs : List (Str × PyVal)) :
    pyStrip (pyJson (.dict kvs)) = pyJson (.dict kvs) ∧ pyJson (.dict kvs) ≠ [] := by
  rw [pyJson_dict_shape]
  refine ⟨pyStrip_eq_self_of_ends _ (Char.ofNat 123) (Char.ofNat 125) rfl (by decide)
    ?_ (by decide), by simp⟩
  rw [← List.cons_append]
  exact List.getLast?_concat _

theorem pyJson_list_strip (xs : List PyVal) :
    pyStrip (pyJson (.list xs)) = pyJson (.list xs) ∧ pyJson (.list xs) ≠ [] := by
  rw [pyJson_list_shape]
  refine ⟨pyStrip_eq_self_of_ends _ '[' ']' rfl (by decide) ?_ (by decide), by simp⟩
  rw [← List.cons_append]
  exact List.getLast?_concat _

/-! ## Claim C9 -/

/-- C9: value coercion is total and never yields an empty or
whitespace-only string: None, the empty string and whitespace-only
string forms become the sentinel, dictionaries and lists become their
JSON text, and every other value becomes its whitespace-stripped
string form. -/
theorem ensure_value_total_spec (v : PyVal) :
    ensure_value v = ensureSpecValue v ∧ pyStrip (ensure_value v) ≠ [] := by
  cases v with
  | none => exact ⟨rfl, by decide⟩
  | bool b => cases b <;> exact ⟨by decide, by decide⟩
  | int n =>
    rcases intRepr_strip n with ⟨hs, hne⟩
    have he : ensure_value (.int n) = intRepr n := by
      simp only [ensure_value, pyStr, hs]
      rw [if_neg hne]
    constructor
    · rw [he, ensureSpecValue, hs]
    · rw [he, hs]
      exact hne
  | str s =>
    by_cases h : pyStrip s = []
    · have he : ensure_value (.str s) = sinDatos := by
        simp only [ensure_value, pyStr]
        rw [if_pos h]
      constructor
      · rw [he, ensureSpecValue, if_pos h]
      · rw [he]
        decide
    · have he : ensure_value (.str s) = pyStrip s := by
        simp only [ensure_value, pyStr]
        rw [if_neg h]
      constructor
      · rw [he, ensureSpecValue, if_neg h]
      · rw [he, pyStrip_idem]
        exact h
  | list xs =>
    rcases pyJson_list_strip xs with ⟨hs, hne⟩
    have he : ensure_value (.list xs) = pyJson (.list xs) := by
      simp only [ensure_value, hs]
      rw [if_neg hne]
    constructor
    · rw [he, ensureSpecValue]
    · rw [he, hs]
      exact hne
  | dict kvs =>
    rcases pyJson_dict_strip kvs with ⟨hs, hne⟩
    have he : ensure_value (.dict kvs) = pyJson (.dict kvs) := by
      simp only [ensure_value, hs]
      rw [if_neg hne]
    constructor
    · rw [he, ensureSpecValue]
    · rw [he, hs]
      exact hne

/-! ## Generic lemmas about runs, maps and strips (towards C10) -/

theorem mem_of_dropWhile (p : Char → Bool) : ∀ (l : Str) (c : Char),
    c ∈ l.dropWhile p → c ∈ l := by
  intro l
  induction l with
  | nil =>
    intro c h
    cases h
  | cons x xs ih =>
    intro c h
    rw [List.dropWhile_cons] at h
    by_cases hx : p x
    · rw [if_pos hx] at h
      exact List.mem_cons_of_mem _ (ih c h)
    · rw [if_neg hx] at h
      exact h

theorem mem_of_rstripP (p : Char → Bool) : ∀ (l : Str) (c : Char),
    c ∈ rstripP p l → c ∈ l := by
  intro l
  induction l with
  | nil =>
    intro c h
    cases h
  | cons x xs ih =>
    intro c h
    rw [rstripP] at h
    split at h
    · by_cases hx : p x
      · rw [if_pos hx] at h
        cases h
      · rw [if_neg hx] at h
        rcases List.mem_singleton.1 h with rfl
        exact List.mem_cons_self _ _
    · next heq =>
      rcases List.mem_cons.1 h with rfl | h2
      · exact List.mem_cons_self _ _
      · exact List.mem_cons_of_mem _ (ih c h2)

theorem noTwoAdj_cons_cons (p : Char → Bool) (a b : Char) (l : Str) :
    noTwoAdj p (a :: b :: l) = ((!(p a && p b)) && noTwoAdj p (b :: l)) := rfl

theorem noTwoAdj_tail (p : Char → Bool) (c : Char) (l : Str)
    (h : noTwoAdj p (c :: l) = true) : noTwoAdj p l = true := by
  cases l with
  | nil => rfl
  | cons b bs =>
    rw [noTwoAdj_cons_cons, Bool.and_eq_true] at h
    exact h.2

theorem noTwoAdj_pair (p : Char → Bool) (a b : Char) (l : Str)
    (h : noTwoAdj p (a :: b :: l) = true) : (p a && p b) = false := by
  rw [noTwoAdj_cons_cons, Bool.and_eq_true] at h
  cases hab : (p a && p b)
  · rfl
  · rw [hab] at h
    exact absurd h.1 (by simp)

theorem noTwoAdj_cons_of (p : Char → Bool) (c : Char) (l : Str)
    (hpair : ∀ b, l.head? = some b → (p c && p b) = false)
    (hl : noTwoAdj p l = true) : noTwoAdj p (c :: l) = true := by
  cases l with
  | nil => rfl
  | cons b bs =>
    rw [noTwoAdj_cons_cons, Bool.and_eq_true]
    exact ⟨by rw [hpair b rfl]; rfl, hl⟩

theorem noTwoAdj_dropWhile (p q : Char → Bool) : ∀ (l : Str),
    noTwoAdj p l = true → noTwoAdj p (l.dropWhile q) = true := by
  intro l
  induction l with
  | nil =>
    intro _
    rfl
  | cons c cs ih =>
    intro h
    rw [List.dropWhile_cons]
    by_cases hc : q c
    · rw [if_pos hc]
      exact ih (noTwoAdj_tail p c cs h)
    · rw [if_neg hc]
      exact h

theorem noTwoAdj_rstripP (p q : Char → Bool) : ∀ (l : Str),
    noTwoAdj p l = true → noTwoAdj p (rstripP q l) = true := by
  intro l
  induction l with
  | nil =>
    intro _
    rfl
  | cons c cs ih =>
    intro h
    rw [rstripP]
    cases h2 : rstripP q cs with
    | nil =>
      by_cases hc : q c
      · rw [if_pos hc]
        rfl
      · rw [if_neg hc]
        rfl
    | cons r rs =>
      have htail : noTwoAdj p (r :: rs) = true := by
        rw [← h2]
        exact ih (noTwoAdj_tail p c cs h)
      refine noTwoAdj_cons_of p c (r :: rs) (fun b hb => ?_) htail
      cases hb
      cases cs with
      | nil =>
        rw [rstripP] at h2
        cases h2
      | cons x xs =>
        have hr : r = x := rstripP_cons_head q x xs rs r h2
        rw [hr]
        exact noTwoAdj_pair p c x xs h

theorem mapIdOn (l : Str) (f : Char → Char) (h : ∀ c ∈ l, f c = c) :
    l.map f = l :=
  (List.map_congr_left h).trans (List.map_id l)

theorem replaceChar_singleton (d e : Char) : ∀ (l : Str),
    replaceChar d [e] l = l.map (fun c => if c = d then e else c) := by
  intro l
  induction l with
  | nil => rfl
  | cons c cs ih =>
    rw [replaceChar, ih, List.map_cons]
    by_cases hc : c = d
    · rw [if_pos hc, if_pos hc]
      rfl
    · rw [if_neg hc, if_neg hc]
      rfl

theorem unidecodeStr_id : ∀ (l : Str), (∀ c ∈ l, unidecodeChar c = [c]) →
    unidecodeStr l = l := by
  intro l
  induction l with
  | nil =>
    intro _
    rfl
  | cons c cs ih =>
    intro h
    rw [unidecodeStr, h c (List.mem_cons_self _ _),
      ih (fun x hx => h x (List.mem_cons_of_mem _ hx))]
    rfl

theorem replaceRunsGo_id (p : Char → Bool) (r : Str) : ∀ (l : Str) (flag : Bool),
    (∀ c ∈ l, p c = false) → replaceRunsGo p r flag l = l := by
  intro l
  induction l with
  | nil =>
    intro flag _
    rfl
  | cons c cs ih =>
    intro flag h
    rw [replaceRunsGo, h c (List.mem_cons_self _ _)]
    simp only [Bool.false_eq_true, if_false]
    rw [ih false (fun x hx => h x (List.mem_cons_of_mem _ hx))]

theorem replaceRuns_id (p : Char → Bool) (r : Str) (l : Str)
    (h : ∀ c ∈ l, p c = false) : replaceRuns p r l = l :=
  replaceRunsGo_id p r l false h

theorem replaceRunsGo_chars (p : Char → Bool) (r : Str) : ∀ (l : Str) (flag : Bool)
    (c : Char), c ∈ replaceRunsGo p r flag l → (p c = false ∧ c ∈ l) ∨ c ∈ r := by
  intro l
  induction l with
  | nil =>
    intro flag c h
    cases h
  | cons x xs ih =>
    intro flag c h
    rw [replaceRunsGo] at h
    by_cases hx : p x
    · rw [if_pos hx] at h
      rcases List.mem_append.1 h with h2 | h2
      · rcases flag with _ | _
        · exact Or.inr h2
        · cases h2
      · rcases ih true c h2 with ⟨h3, h4⟩ | h3
        · exact Or.inl ⟨h3, List.mem_cons_of_mem _ h4⟩
        · exact Or.inr h3
    · rw [if_neg hx] at h
      rcases List.mem_cons.1 h with rfl | h2
      · exact Or.inl ⟨eq_false_of_ne_true hx, List.mem_cons_self _ _⟩
      · rcases ih false c h2 with ⟨h3, h4⟩ | h3
        · exact Or.inl ⟨h3, List.mem_cons_of_mem _ h4⟩
        · exact Or.inr h3

theorem replaceRuns_chars (p : Char → Bool) (r : Str) (l : Str) (c : Char)
    (h : c ∈ replaceRuns p r l) : (p c = false ∧ c ∈ l) ∨ c ∈ r :=
  replaceRunsGo_chars p r l false c h

theorem replaceRunsGo_collapse (p : Char → Bool) (d : Char) :
    ∀ (l : Str),
    noTwoAdj p (replaceRunsGo p [d] false l) = true ∧
    noTwoAdj p (replaceRunsGo p [d] true l) = true ∧
    (∀ c, (replaceRunsGo p [d] true l).head? = some c → p c = false) := by
  intro l
  induction l with
  | nil => exact ⟨rfl, rfl, fun c h => by cases h⟩
  | cons x xs ih =>
    rcases ih with ⟨ihA, ihB, ihH⟩
    by_cases hx : p x
    · refine ⟨?_, ?_, ?_⟩
      · rw [replaceRunsGo, if_pos hx]
        show noTwoAdj p (d :: replaceRunsGo p [d] true xs) = true
        refine noTwoAdj_cons_of p d _ (fun b hb => ?_) ihB
        rw [ihH b hb]
        exact Bool.and_false _
      · rw [replaceRunsGo, if_pos hx]
        show noTwoAdj p (replaceRunsGo p [d] true xs) = true
        exact ihB
      · intro c h
        rw [replaceRunsGo, if_pos hx] at h
        exact ihH c h
    · have hxf : p x = false := eq_false_of_ne_true hx
      have hcons : noTwoAdj p (x :: replaceRunsGo p [d] false xs) = true := by
        refine noTwoAdj_cons_of p x _ (fun b _ => ?_) ihA
        rw [hxf]
        rfl
      refine ⟨?_, ?_, ?_⟩
      · rw [replaceRunsGo, if_neg hx]
        exact hcons
      · rw [replaceRunsGo, if_neg hx]
        exact hcons
      · intro c h
        rw [replaceRunsGo, if_neg hx] at h
        cases h
        exact hxf

theorem noTwoAdj_map (p1 p2 : Char → Bool) (f : Char → Char) : ∀ (l : Str),
    (∀ c ∈ l, p2 (f c) = p1 c) → noTwoAdj p2 (l.map f) = noTwoAdj p1 l := by
  intro l
  induction l with
  | nil =>
    intro _
    rfl
  | cons a l ih =>
    intro h
    cases l with
    | nil => rfl
    | cons b bs =>
      rw [List.map_cons, List.map_cons, noTwoAdj_cons_cons, noTwoAdj_cons_cons,
        h a (List.mem_cons_self _ _),
        h b (List.mem_cons_of_mem _ (List.mem_cons_self _ _)),
        ← List.map_cons f b bs,
        ih (fun c hc => h c (List.mem_cons_of_mem _ hc))]

theorem replaceRunsGo_map (p : Char → Bool) (d : Char) : ∀ (l : Str),
    noTwoAdj p l = true →
    replaceRunsGo p [d] false l = l.map (fun c => if p c then d else c) ∧
    ((∀ b, l.head? = some b → p b = false) →
      replaceRunsGo p [d] true l = l.map (fun c => if p c then d else c)) := by
  intro l
  induction l with
  | nil => exact fun _ => ⟨rfl, fun _ => rfl⟩
  | cons c cs ih =>
    intro h
    rcases ih (noTwoAdj_tail p c cs h) with ⟨ihA, ihB⟩
    constructor
    · by_cases hc : p c
      · rw [replaceRunsGo, if_pos hc, List.map_cons, if_pos hc]
        have hhead : ∀ b, cs.head? = some b → p b = false := by
          intro b hb
          cases cs with
          | nil => cases hb
          | cons y ys =>
            cases hb
            have := noTwoAdj_pair p c b ys h
            rw [hc] at this
            simpa using this
        rw [ihB hhead]
        rfl
      · rw [replaceRunsGo, if_neg hc, List.map_cons, if_neg hc, ihA]
    · intro hh
      have hcf : p c = false := hh c rfl
      rw [replaceRunsGo, hcf]
      simp only [Bool.false_eq_true, if_false]
      rw [ihA, List.map_cons, if_neg (by rw [hcf]; exact Bool.false_ne_true)]

theorem replaceRuns_map (p : Char → Bool) (d : Char) (l : Str)
    (h : noTwoAdj p l = true) :
    replaceRuns p [d] l = l.map (fun c => if p c then d else c) :=
  (replaceRunsGo_map p d l h).1

theorem rstripP_last_not (p : Char → Bool) : ∀ (l : Str) (d : Char),
    (rstripP p l).getLast? = some d → p d = false := by
  intro l
  induction l with
  | nil =>
    intro d h
    cases h
  | cons c cs ih =>
    intro d h
    rw [rstripP] at h
    split at h
    · by_cases hc : p c
      · rw [if_pos hc] at h
        cases h
      · rw [if_neg hc] at h
        rw [List.getLast?_singleton] at h
        cases Option.some.inj h
        exact eq_false_of_ne_true hc
    · next heq =>
      have hne : rstripP p cs ≠ [] := fun hnil => heq hnil
      rcases List.exists_cons_of_ne_nil hne with ⟨r, rs, hr⟩
      rw [hr, List.getLast?_cons_cons] at h
      refine ih d ?_
      rw [hr]
      exact h

/-! ## Character-class facts -/

theorem isKeyChar_cases (c : Char) (h : isKeyChar c = true) :
    c = '_' ∨ (97 ≤ c.toNat ∧ c.toNat ≤ 122) ∨ (48 ≤ c.toNat ∧ c.toNat ≤ 57) := by
  simp only [isKeyChar, Bool.or_eq_true, Bool.and_eq_true, decide_eq_true_eq] at h
  rcases h with (h1 | h1) | h1
  · exact Or.inl h1
  · exact Or.inr (Or.inl h1)
  · exact Or.inr (Or.inr h1)

theorem isSlugKeep_cases (c : Char) (h : isSlugKeep c = true) :
    c = '-' ∨ (97 ≤ c.toNat ∧ c.toNat ≤ 122) ∨ (48 ≤ c.toNat ∧ c.toNat ≤ 57) := by
  simp only [isSlugKeep, Bool.or_eq_true, Bool.and_eq_true, decide_eq_true_eq] at h
  rcases h with (h1 | h1) | h1
  · exact Or.inl h1
  · exact Or.inr (Or.inl h1)
  · exact Or.inr (Or.inr h1)

theorem keyChar_facts (c : Char) (h : isKeyChar c = true) :
    (decide (c = quoteChar)) = false ∧ unidecodeChar c = [c] ∧ pyLowerChar c = c ∧
    c ≠ ',' ∧ ((!isSlugKeep c) = decide (c = '_')) ∧
    ((decide (undToDash c = '-')) = decide (c = '_')) ∧
    dashToUnd (undToDash c) = c := by
  rcases isKeyChar_cases c h with rfl | hr
  · exact ⟨by decide, by decide, by decide, by decide, by decide, by decide, by decide⟩
  · have h128 : c.toNat < 128 := by rcases hr with ⟨h1, h2⟩ | ⟨h1, h2⟩ <;> omega
    have hq : c ≠ quoteChar := by
      intro he
      subst he
      rcases hr with ⟨h1, _⟩ | ⟨h1, _⟩ <;> exact absurd h1 (by decide)
    have hu : c ≠ '_' := by
      intro he
      subst he
      rcases hr with ⟨h1, _⟩ | ⟨_, h2⟩
      · exact absurd h1 (by decide)
      · exact absurd h2 (by decide)
    have hcm : c ≠ ',' := by
      intro he
      subst he
      rcases hr with ⟨h1, _⟩ | ⟨h1, _⟩ <;> exact absurd h1 (by decide)
    have hdash : c ≠ '-' := by
      intro he
      subst he
      rcases hr with ⟨h1, _⟩ | ⟨h1, _⟩ <;> exact absurd h1 (by decide)
    have hkeep : isSlugKeep c = true := by
      simp only [isSlugKeep, Bool.or_eq_true, Bool.and_eq_true, decide_eq_true_eq]
      rcases hr with ⟨h1, h2⟩ | ⟨h1, h2⟩
      · exact Or.inl (Or.inr ⟨h1, h2⟩)
      · exact Or.inr ⟨h1, h2⟩
    have hund : undToDash c = c := by
      rw [undToDash, hkeep]
      rfl
    refine ⟨decide_eq_false hq, ?_, ?_, hcm, ?_, ?_, ?_⟩
    · rw [unidecodeChar, if_pos h128]
    · have hno : ¬(65 ≤ c.toNat && c.toNat ≤ 90) = true := by
        simp only [Bool.and_eq_true, decide_eq_true_eq]
        rcases hr with ⟨h1, h2⟩ | ⟨h1, h2⟩ <;> omega
      rw [pyLowerChar, if_neg hno]
    · rw [hkeep, decide_eq_false hu]
      rfl
    · rw [hund, decide_eq_false hdash, decide_eq_false hu]
    · rw [hund, dashToUnd, if_neg hdash]

theorem slugKeep_facts (c : Char) (h : isSlugKeep c = true) :
    isKeyChar (dashToUnd c) = true ∧
    (decide (dashToUnd c = '_')) = decide (c = '-') := by
  rcases isSlugKeep_cases c h with rfl | hr
  · exact ⟨by decide, by decide⟩
  · have hdash : c ≠ '-' := by
      intro he
      subst he
      rcases hr with ⟨h1, _⟩ | ⟨h1, _⟩ <;> exact absurd h1 (by decide)
    have hu : c ≠ '_' := by
      intro he
      subst he
      rcases hr with ⟨h1, _⟩ | ⟨_, h2⟩
      · exact absurd h1 (by decide)
      · exact absurd h2 (by decide)
    have hd2u : dashToUnd c = c := by
      rw [dashToUnd, if_neg hdash]
    constructor
    · rw [hd2u]
      simp only [isKeyChar, Bool.or_eq_true, Bool.and_eq_true, decide_eq_true_eq]
      rcases hr with ⟨h1, h2⟩ | ⟨h1, h2⟩
      · exact Or.inl (Or.inr ⟨h1, h2⟩)
      · exact Or.inr ⟨h1, h2⟩
    · rw [hd2u, decide_eq_false hu, decide_eq_false hdash]

theorem noTwoAdj_congr (p q : Char → Bool) : ∀ (l : Str),
    (∀ c ∈ l, p c = q c) → noTwoAdj p l = noTwoAdj q l := by
  intro l
  induction l with
  | nil =>
    intro _
    rfl
  | cons a l ih =>
    intro h
    cases l with
    | nil => rfl
    | cons b bs =>
      rw [noTwoAdj_cons_cons, noTwoAdj_cons_cons, h a (List.mem_cons_self _ _),
        h b (List.mem_cons_of_mem _ (List.mem_cons_self _ _)),
        ih (fun c hc => h c (List.mem_cons_of_mem _ hc))]

theorem stripNumberCommas_id : ∀ (l : Str), (∀ c ∈ l, c ≠ ',') →
    stripNumberCommas l = l := by
  intro l
  induction l with
  | nil =>
    intro _
    rfl
  | cons c cs ih =>
    intro h
    have htail : stripNumberCommas cs = cs :=
      ih (fun x hx => h x (List.mem_cons_of_mem _ hx))
    cases cs with
    | nil => rfl
    | cons b bs =>
      cases bs with
      | nil =>
        rw [stripNumberCommas.eq_def]
        split
        · next a b2 rest heq =>
          rcases List.cons.inj heq with ⟨_, heq2⟩
          rcases List.cons.inj heq2 with ⟨_, heq3⟩
          cases heq3
        · next c2 cs2 hside heq =>
          rcases List.cons.inj heq with ⟨rfl, rfl⟩
          rw [htail]
        · next heq => cases heq
      | cons e es =>
        have hb : b ≠ ',' := h b (by simp)
        have hred : stripNumberCommas (c :: b :: e :: es)
            = c :: stripNumberCommas (b :: e :: es) := by
          rw [stripNumberCommas.eq_def]
          split
          · next a b2 rest heq =>
            rcases List.cons.inj heq with ⟨_, heq2⟩
            rcases List.cons.inj heq2 with ⟨hb2, _⟩
            exact absurd hb2 hb
          · next c2 cs2 hside heq =>
            rcases List.cons.inj heq with ⟨rfl, rfl⟩
            rfl
          · next heq => cases heq
        rw [hred, htail]

/-! ## The shape of slugify output and idempotence -/

theorem mem_of_getLast? {α : Type} (l : List α) (d : α) (h : l.getLast? = some d) :
    d ∈ l := by
  rcases List.mem_getLast?_eq_getLast (l := l) (x := d) h with ⟨hne, heq⟩
  exact heq ▸ List.getLast_mem hne

/-- The tail of the slugify pipeline: the separator replacement of a
string whose characters all belong to the kept alphabet, with no two
adjacent dashes and no dash at either end, yields a string over the
key alphabet with the same three properties for the underscore. -/
theorem slug_final_map_form (m : Str)
    (hD : ∀ c ∈ m, isSlugKeep c = true)
    (hE : noTwoAdj (fun c => c = '-') m = true)
    (hF : ∀ c, m.head? = some c → c ≠ '-')
    (hG : ∀ c, m.getLast? = some c → c ≠ '-') :
    (∀ c ∈ m.map dashToUnd, isKeyChar c = true) ∧
    noTwoAdj (fun c => c = '_') (m.map dashToUnd) = true ∧
    (∀ c, (m.map dashToUnd).head? = some c → c ≠ '_') ∧
    (∀ c, (m.map dashToUnd).getLast? = some c → c ≠ '_') := by
  refine ⟨?_, ?_, ?_, ?_⟩
  · intro c hc
    rcases List.mem_map.1 hc with ⟨x, hx, rfl⟩
    exact (slugKeep_facts x (hD x hx)).1
  · rw [noTwoAdj_map (fun c => c = '-') (fun c => c = '_') dashToUnd m
      (fun c hc => (slugKeep_facts c (hD c hc)).2)]
    exact hE
  · intro c hc
    rw [List.head?_map] at hc
    cases ht : m.head? with
    | none =>
      rw [ht] at hc
      cases hc
    | some x =>
      rw [ht] at hc
      cases hc
      have hk : isSlugKeep x = true := hD x (List.mem_of_mem_head? ht)
      have hdec := (slugKeep_facts x hk).2
      rw [decide_eq_false (hF x ht)] at hdec
      exact of_decide_eq_false hdec
  · intro c hc
    rw [List.getLast?_map] at hc
    cases ht : m.getLast? with
    | none =>
      rw [ht] at hc
      cases hc
    | some x =>
      rw [ht] at hc
      cases hc
      have hk : isSlugKeep x = true := hD x (mem_of_getLast? m x ht)
      have hdec := (slugKeep_facts x hk).2
      rw [decide_eq_false (hG x ht)] at hdec
      exact of_decide_eq_false hdec

theorem slugify_output_form (text : Str) :
    (∀ c ∈ slugify text sepUnderscore, isKeyChar c = true) ∧
    noTwoAdj (fun c => c = '_') (slugify text sepUnderscore) = true ∧
    (∀ c, (slugify text sepUnderscore).head? = some c → c ≠ '_') ∧
    (∀ c, (slugify text sepUnderscore).getLast? = some c → c ≠ '_') := by
  have hbody : slugify text sepUnderscore =
      replaceChar '-' (chars "_")
        (rstripP (fun c => c = '-')
          ((replaceRuns (fun c => c = '-') ['-']
            (replaceRuns (fun c => !isSlugKeep c) ['-']
              (stripNumberCommas
                (replaceRuns (fun c => c = quoteChar) []
                  ((unidecodeStr
                    (replaceRuns (fun c => c = quoteChar) ['-'] text)).map
                      pyLowerChar))))).dropWhile (fun c => c = '-'))) := by
    simp only [slugify]
    rw [if_neg (by decide : ¬(sepUnderscore = ['-']))]
    rfl
  rw [hbody]
  set t5 := stripNumberCommas
    (replaceRuns (fun c => c = quoteChar) []
      ((unidecodeStr (replaceRuns (fun c => c = quoteChar) ['-'] text)).map
        pyLowerChar)) with ht5
  set t7 := replaceRuns (fun c => c = '-') ['-']
    (replaceRuns (fun c => !isSlugKeep c) ['-'] t5) with ht7
  set t8 := rstripP (fun c => c = '-') (t7.dropWhile (fun c => c = '-')) with ht8
  have hA : ∀ c ∈ replaceRuns (fun c => !isSlugKeep c) ['-'] t5, isSlugKeep c = true := by
    intro c hc
    rcases replaceRuns_chars _ _ _ _ hc with ⟨hf, _⟩ | hm
    · cases hk : isSlugKeep c
      · rw [hk] at hf
        cases hf
      · rfl
    · rcases List.mem_singleton.1 hm with rfl
      decide
  have hB : ∀ c ∈ t7, isSlugKeep c = true := by
    intro c hc
    rw [ht7] at hc
    rcases replaceRuns_chars _ _ _ _ hc with ⟨_, hm⟩ | hm
    · exact hA c hm
    · rcases List.mem_singleton.1 hm with rfl
      decide
  have hC : noTwoAdj (fun c => c = '-') t7 = true := by
    rw [ht7]
    exact (replaceRunsGo_collapse (fun c => c = '-') '-'
      (replaceRuns (fun c => !isSlugKeep c) ['-'] t5)).1
  have hD : ∀ c ∈ t8, isSlugKeep c = true := by
    intro c hc
    rw [ht8] at hc
    exact hB c (mem_of_dropWhile _ _ _ (mem_of_rstripP _ _ _ hc))
  have hE : noTwoAdj (fun c => c = '-') t8 = true := by
    rw [ht8]
    exact noTwoAdj_rstripP _ _ _ (noTwoAdj_dropWhile _ _ _ hC)
  have hF : ∀ c, t8.head? = some c → c ≠ '-' := by
    intro c hc
    rw [ht8] at hc
    cases hdw : t7.dropWhile (fun c => c = '-') with
    | nil =>
      rw [hdw, rstripP] at hc
      cases hc
    | cons x xs =>
      have hx : (decide (x = '-')) = false := dropWhile_head_not _ t7 x xs hdw
      rw [hdw] at hc
      cases h8 : rstripP (fun c => c = '-') (x :: xs) with
      | nil =>
        rw [h8] at hc
        cases hc
      | cons r rs =>
        rw [h8] at hc
        cases hc
        have hr : c = x := rstripP_cons_head _ x xs rs c h8
        rw [hr]
        exact of_decide_eq_false hx
  have hG : ∀ c, t8.getLast? = some c → c ≠ '-' := by
    intro c hc
    rw [ht8] at hc
    exact of_decide_eq_false (rstripP_last_not (fun c => c = '-') _ c hc)
  have hRC : replaceChar '-' (chars "_") t8 = t8.map dashToUnd := by
    rw [show chars "_" = ['_'] from rfl, replaceChar_singleton]
    rfl
  rw [hRC]
  exact slug_final_map_form t8 hD hE hF hG

/-- A string over the key alphabet, with no two adjacent underscores
and no underscore at either end, is a fixed point of slugify with the
underscore separator. -/
theorem slugify_fixed_of_form (y : Str)
    (h1 : ∀ c ∈ y, isKeyChar c = true)
    (h2 : noTwoAdj (fun c => c = '_') y = true)
    (h3 : ∀ c, y.head? = some c → c ≠ '_')
    (h4 : ∀ c, y.getLast? = some c → c ≠ '_') :
    slugify y sepUnderscore = y := by
  have s1 : replaceRuns (fun c => c = quoteChar) ['-'] y = y :=
    replaceRuns_id _ _ y (fun c hc => (keyChar_facts c (h1 c hc)).1)
  have s2 : unidecodeStr y = y :=
    unidecodeStr_id y (fun c hc => (keyChar_facts c (h1 c hc)).2.1)
  have s3 : y.map pyLowerChar = y :=
    mapIdOn y _ (fun c hc => (keyChar_facts c (h1 c hc)).2.2.1)
  have s4 : replaceRuns (fun c => c = quoteChar) [] y = y :=
    replaceRuns_id _ _ y (fun c hc => (keyChar_facts c (h1 c hc)).1)
  have s5 : stripNumberCommas y = y :=
    stripNumberCommas_id y (fun c hc => (keyChar_facts c (h1 c hc)).2.2.2.1)
  have hp6 : noTwoAdj (fun c => !isSlugKeep c) y = true := by
    rw [noTwoAdj_congr (fun c => !isSlugKeep c) (fun c => c = '_') y
      (fun c hc => (keyChar_facts c (h1 c hc)).2.2.2.2.1)]
    exact h2
  have s6 : replaceRuns (fun c => !isSlugKeep c) ['-'] y = y.map undToDash := by
    rw [replaceRuns_map (fun c => !isSlugKeep c) '-' y hp6]
    rfl
  have hp7 : noTwoAdj (fun c => c = '-') (y.map undToDash) = true := by
    rw [noTwoAdj_map (fun c => c = '_') (fun c => c = '-') undToDash y
      (fun c hc => (keyChar_facts c (h1 c hc)).2.2.2.2.2.1)]
    exact h2
  have s7 : replaceRuns (fun c => c = '-') ['-'] (y.map undToDash) = y.map undToDash := by
    rw [replaceRuns_map (fun c => c = '-') '-' _ hp7]
    refine mapIdOn _ _ (fun c _ => ?_)
    by_cases hc : c = '-'
    · subst hc
      simp
    · simp [hc]
  have s8a : (y.map undToDash).dropWhile (fun c => c = '-') = y.map undToDash := by
    cases hy : y with
    | nil => rfl
    | cons a ys =>
      rw [List.map_cons, List.dropWhile_cons]
      have ha : a ≠ '_' := h3 a (by rw [hy]; rfl)
      have hk : isKeyChar a = true := h1 a (by rw [hy]; exact List.mem_cons_self _ _)
      have hda : (decide (undToDash a = '-')) = false := by
        rw [(keyChar_facts a hk).2.2.2.2.2.1, decide_eq_false ha]
      rw [hda]
      rfl
  have s8b : rstripP (fun c => c = '-') (y.map undToDash) = y.map undToDash := by
    cases hy : y.getLast? with
    | none =>
      rw [List.getLast?_eq_none_iff.1 hy]
      rfl
    | some d =>
      have hk : isKeyChar d = true := h1 d (mem_of_getLast? y d hy)
      have hd : d ≠ '_' := h4 d hy
      refine rstripP_eq_self_of_last _ _ (undToDash d) ?_ ?_
      · rw [List.getLast?_map, hy]
        rfl
      · rw [(keyChar_facts d hk).2.2.2.2.2.1, decide_eq_false hd]
  have hbody : slugify y sepUnderscore =
      replaceChar '-' (chars "_")
        (rstripP (fun c => c = '-')
          ((replaceRuns (fun c => c = '-') ['-']
            (replaceRuns (fun c => !isSlugKeep c) ['-']
              (stripNumberCommas
                (replaceRuns (fun c => c = quoteChar) []
                  ((unidecodeStr
                    (replaceRuns (fun c => c = quoteChar) ['-'] y)).map
                      pyLowerChar))))).dropWhile (fun c => c = '-'))) := by
    simp only [slugify]
    rw [if_neg (by decide : ¬(sepUnderscore = ['-']))]
    rfl
  rw [hbody, s1, s2, s3, s4, s5, s6, s7, s8a, s8b,
    show chars "_" = ['_'] from rfl, replaceChar_singleton, List.map_map]
  exact mapIdOn _ _ (fun c hc => (keyChar_facts c (h1 c hc)).2.2.2.2.2.2)

/-- slugify with the underscore separator is idempotent. -/
theorem slugify_idem (text : Str) :
    slugify (slugify text sepUnderscore) sepUnderscore = slugify text sepUnderscore := by
  rcases slugify_output_form text with ⟨h1, h2, h3, h4⟩
  exact slugify_fixed_of_form _ h1 h2 h3 h4

/-! ## Claim C10 -/

theorem extractFieldsAux_key : ∀ (lines : List Str) (i : Nat) (f : Field),
    f ∈ extractFieldsAux i lines → f.key = slugify f.raw_label sepUnderscore := by
  intro lines
  induction lines with
  | nil =>
    intro i f hf
    cases hf
  | cons ln rest ih =>
    intro i f hf
    cases h : labelMatch ln with
    | none =>
      simp only [extractFieldsAux, h] at hf
      exact ih _ f hf
    | some g =>
      simp only [extractFieldsAux, h] at hf
      rcases List.mem_cons.1 hf with rfl | hf2
      · rfl
      · exact ih _ f hf2

theorem dictGet_dictSet_self {α : Type} (d : List (Str × α)) (k : Str) (v : α) :
    dictGet (dictSet d k v) k = some v := by
  induction d with
  | nil => rw [dictSet, dictGet, if_pos rfl]
  | cons e d ih =>
    rw [dictSet]
    by_cases he : e.1 = k
    · rw [if_pos he, dictGet, if_pos rfl]
    · rw [if_neg he, dictGet, if_neg he]
      exact ih

theorem dictGet_dictSet_other {α : Type} (d : List (Str × α)) (k k2 : Str) (v : α)
    (h : k ≠ k2) : dictGet (dictSet d k v) k2 = dictGet d k2 := by
  induction d with
  | nil =>
    rw [dictSet]
    show (if (k, v).1 = k2 then some v else dictGet [] k2) = dictGet [] k2
    rw [if_neg (show ¬((k, v).1 = k2) from h)]
  | cons e d ih =>
    rw [dictSet]
    by_cases he : e.1 = k
    · rw [if_pos he, dictGet, dictGet,
        if_neg (show ¬((k, v).1 = k2) from h),
        if_neg (show ¬(e.1 = k2) from by rw [he]; exact h)]
    · rw [if_neg he, dictGet, dictGet]
      by_cases he2 : e.1 = k2
      · rw [if_pos he2, if_pos he2]
      · rw [if_neg he2, if_neg he2]
        exact ih

theorem buildNormExpected_get_self (eks : List Str) (k : Str)
    (hslug : ∀ e ∈ eks, slugify e sepUnderscore = e) (hk : k ∈ eks) :
    dictGet (buildNormExpected eks) k = some k := by
  have H : ∀ (eks : List Str) (acc : List (Str × Str)),
      (∀ e ∈ eks, slugify e sepUnderscore = e) →
      (dictGet acc k = some k ∨ k ∈ eks) →
      dictGet (eks.foldl (fun d k2 => dictSet d (slugify k2 sepUnderscore) k2) acc) k
        = some k := by
    intro eks
    induction eks with
    | nil =>
      intro acc _ hd
      rcases hd with hd | hd
      · exact hd
      · cases hd
    | cons e eks ih =>
      intro acc hs hd
      rw [List.foldl_cons, hs e (List.mem_cons_self _ _)]
      refine ih (dictSet acc e e) (fun x hx => hs x (List.mem_cons_of_mem _ hx)) ?_
      by_cases hke : k = e
      · subst hke
        exact Or.inl (dictGet_dictSet_self acc k k)
      · rcases hd with hd | hd
        · refine Or.inl ?_
          rw [dictGet_dictSet_other acc e k e (fun he => hke he.symm)]
          exact hd
        · rcases List.mem_cons.1 hd with rfl | hd2
          · exact absurd rfl hke
          · exact Or.inr hd2
  exact H eks [] hslug (Or.inr hk)

/-- C10: slugging is idempotent on the keys produced by extract_fields
— slugify(k, separator underscore) = k for every authoritative key k —
and therefore a caller key literally equal to an authoritative key is
assigned to that key by the exact-match step of reconciliation. -/
theorem slugify_idempotent_on_keys (lines : List Str) (f : Field) (v : PyVal)
    (hf : f ∈ extract_fields lines) :
    slugify f.key sepUnderscore = f.key ∧
    dictGet (normalize_user_data_to_keys [(f.key, v)]
      ((extract_fields lines).map Field.key)) f.key = some v := by
  have hkey : f.key = slugify f.raw_label sepUnderscore :=
    extractFieldsAux_key lines 0 f hf
  have hidem : slugify f.key sepUnderscore = f.key := by
    rw [hkey, slugify_idem f.raw_label]
  refine ⟨hidem, ?_⟩
  have hslugall : ∀ e ∈ (extract_fields lines).map Field.key,
      slugify e sepUnderscore = e := by
    intro e he
    rcases List.mem_map.1 he with ⟨g, hg, rfl⟩
    rw [extractFieldsAux_key lines 0 g hg, slugify_idem g.raw_label]
  have hmemk : f.key ∈ (extract_fields lines).map Field.key :=
    List.mem_map_of_mem _ hf
  have hne : dictGet (buildNormExpected ((extract_fields lines).map Field.key)) f.key
      = some f.key := buildNormExpected_get_self _ _ hslugall hmemk
  have hstep : normalize_user_data_to_keys [(f.key, v)]
      ((extract_fields lines).map Field.key)
      = normStep (buildNormExpected ((extract_fields lines).map Field.key))
        (buildOut0 ((extract_fields lines).map Field.key)) (f.key, v) := rfl
  have h1 : dictGet (buildNormExpected ((extract_fields lines).map Field.key))
      (slugify (f.key, v).1 sepUnderscore) = some f.key := by
    show dictGet _ (slugify f.key sepUnderscore) = some f.key
    rw [hidem]
    exact hne
  rw [hstep]
  simp only [normStep, h1]
  exact dictGet_dictSet_self _ _ _

/-- Witness for C10 at a one-line template: the key cliente is a
slugify fixed point and a caller entry under exactly that key is
assigned to it. -/
theorem slugify_idempotent_on_keys_witness :
    ((⟨0, chars "Cliente", chars "cliente"⟩ : Field) ∈
      extract_fields [chars "Cliente:"]) ∧
    (slugify (chars "cliente") sepUnderscore = chars "cliente" ∧
     dictGet (normalize_user_data_to_keys [(chars "cliente", .str (chars "1"))]
       ((extract_fields [chars "Cliente:"]).map Field.key)) (chars "cliente")
       = some (.str (chars "1"))) := by
  have hm : (⟨0, chars "Cliente", chars "cliente"⟩ : Field) ∈
      extract_fields [chars "Cliente:"] := by decide
  exact ⟨hm, slugify_idempotent_on_keys [chars "Cliente:"] _ (.str (chars "1")) hm⟩

end MasterBrief
